import Mathlib

/-!
Verification development for the `procesador-de-resumenes` repository
(a credit-card statement text extractor).

The Python sources under `src/` are shallowly embedded below:

* `src/utils.py`        : `extract_amount`, `clean_description`, `parse_date`
  (with the `datetime.strptime` behaviour needed by the configured formats),
* `src/extractors/base.py` : the movement-section scanner, the fixed-column
  line parser and the page/file level entry points,
* `src/extractors/patagonia.py` : the post-processing passes (prior balance,
  bank charges, balance capture, cardholder attribution, reconciliation),
* `src/config.py`       : the static Patagonia configuration data used above.

Modelling conventions:
* Python strings are `List Char` (wrappers taking `String` are provided
  where convenient); amounts are `ℚ` (the repository only manipulates
  decimal values that floats represent exactly at the scales involved);
* a Python dict movement is the structure `Movement`; the optional
  `'titular'` key is a `String` field where `""` plays the role of an
  absent key (Python tests the key with truthiness, and `""`/missing are
  equally falsy there);
* Python regexes are compiled by hand into dedicated matchers that follow
  `re.search`/`re.match` leftmost-then-greedy semantics for the concrete
  patterns appearing in the source;
* `\w`, `\d`, `\s` are modelled by their ASCII meaning (the documents the
  configuration targets are ASCII in the matched regions);
* fallible operations (`float(...)`, `datetime.strptime`) return `Option`.
-/

/-! ### Generic character/list helpers -/

/-- One-or-more run test used when modelling `\s`. -/
def isWsChar (c : Char) : Bool := c.isWhitespace

/-- Python `str.strip()` on a list of characters. -/
def stripList (s : List Char) : List Char :=
  ((s.dropWhile isWsChar).reverse.dropWhile isWsChar).reverse

/-- Python `str.rstrip()`. -/
def rstripList (s : List Char) : List Char :=
  (s.reverse.dropWhile isWsChar).reverse

/-- Python `sep.split` counterpart: `splitOnChar sep s` splits `s` at every
occurrence of `sep` (so `"".split` gives `[[]]`, as in Python). -/
def splitOnChar (sep : Char) : List Char → List (List Char)
  | [] => [[]]
  | c :: rest =>
    let r := splitOnChar sep rest
    if c = sep then [] :: r
    else
      match r with
      | [] => [[c]]
      | h :: t => (c :: h) :: t

/-- Python `needle in hay` substring test. -/
def containsSub (needle : List Char) (hay : List Char) : Bool :=
  (List.range (hay.length + 1)).any (fun i => needle.isPrefixOf (hay.drop i))

/-- `containsSub` on `String`s. -/
def containsSubStr (needle : String) (hay : String) : Bool :=
  containsSub needle.data hay.data

/-- Python `str.replace(pat, rep)` (all non-overlapping occurrences, left
to right).  For an empty `pat` Python inserts `rep` everywhere; the
repository only replaces non-empty month names, so the empty pattern is
mapped to the identity. -/
def replaceAllFuel (pat rep : List Char) : Nat → List Char → List Char
  | _, [] => []
  | 0, s => s
  | fuel + 1, c :: rest =>
    match pat with
    | [] => c :: rest
    | _ :: _ =>
      if pat.isPrefixOf (c :: rest) then
        rep ++ replaceAllFuel pat rep fuel ((c :: rest).drop pat.length)
      else
        c :: replaceAllFuel pat rep fuel rest

/-- `replaceAll` with the fuel instantiated: a non-empty pattern consumes
at least one character per step, so `s.length` steps always suffice (the
fuel only makes the recursion structural). -/
def replaceAll (pat rep : List Char) (s : List Char) : List Char :=
  replaceAllFuel pat rep s.length s

/-- Numeric value of a string of decimal digits (most significant first). -/
def natOfDigits (s : List Char) : Nat :=
  s.foldl (fun n ch => 10 * n + (ch.toNat - '0'.toNat)) 0

/-! ### `utils.extract_amount` (src/utils.py lines 63-111) -/

/-- The characters kept by `re.sub(r'[^\d.,]', '', cleaned)`. -/
def isAmountChar (c : Char) : Bool := c.isDigit || c = '.' || c = ','

/-- Model of Python `float(...)` restricted to the strings this pipeline
can produce (digits and at most one decimal point); everything else is a
`ValueError`, i.e. `none`. -/
def pyFloat (s : List Char) : Option ℚ :=
  match splitOnChar '.' s with
  | [a] =>
    if a ≠ [] ∧ a.all Char.isDigit then some (natOfDigits a : ℚ) else none
  | [a, b] =>
    if (a ++ b) ≠ [] ∧ (a ++ b).all Char.isDigit then
      some ((natOfDigits a : ℚ) + (natOfDigits b : ℚ) / 10 ^ b.length)
    else none
  | _ => none

/-- `','` to `'.'` replacement used by the Argentine-format branches. -/
def commaToDot (c : Char) : Char := if c = ',' then '.' else c

/-- The `try:` block of `extract_amount`: separator disambiguation followed
by `float(cleaned)` (src/utils.py lines 90-107). -/
def convertCleaned (c : List Char) : Option ℚ :=
  if '.' ∈ c ∧ ',' ∈ c then
    -- punto como miles, coma como decimal
    pyFloat ((c.filter (· ≠ '.')).map commaToDot)
  else if ',' ∈ c then
    match splitOnChar ',' c with
    | [_, p1] =>
      if p1.length ≤ 2 then pyFloat (c.map commaToDot)
      else pyFloat (c.filter (· ≠ ','))
    | _ => pyFloat (c.filter (· ≠ ','))
  else if '.' ∈ c then
    match splitOnChar '.' c with
    | [p0, p1] =>
      if p1.length ≤ 2 ∧ p0.length ≤ 3 then pyFloat c
      else pyFloat (c.filter (· ≠ '.'))
    | _ => pyFloat (c.filter (· ≠ '.'))
  else pyFloat c

/-- `utils.extract_amount` on character lists. -/
def extract_amount (s : List Char) : Option ℚ :=
  if s = [] then none
  else
    let c0 := stripList s
    let isNeg := c0.getLast? = some '-'
    let c1 := if isNeg then stripList c0.dropLast else c0
    let c2 := c1.filter isAmountChar
    if c2 = [] then none
    else
      match convertCleaned c2 with
      | none => none
      | some q => some (if isNeg then -q else q)

/-- `utils.extract_amount` on `String`s. -/
def extract_amount_str (s : String) : Option ℚ := extract_amount s.data

/-! ### `utils.clean_description` (src/utils.py lines 113-132) -/

theorem dropWhile_length_le (p : Char → Bool) (l : List Char) :
    (l.dropWhile p).length ≤ l.length := by
  induction l with
  | nil => simp [List.dropWhile]
  | cons c rest ih =>
    by_cases h : p c
    · simp only [List.dropWhile, h, List.length_cons]
      omega
    · simp [List.dropWhile, h]

def collapseRunsFuel : Nat → List Char → List Char
  | _, [] => []
  | 0, s => s
  | fuel + 1, c :: rest =>
    if isWsChar c then ' ' :: collapseRunsFuel fuel (rest.dropWhile isWsChar)
    else c :: collapseRunsFuel fuel rest

/-- `re.sub(r'\s+', ' ', ·)`: each maximal whitespace run becomes one
space.  Every step consumes at least one character, so `s.length` fuel
always suffices (the fuel only makes the recursion structural). -/
def collapseRuns (s : List Char) : List Char := collapseRunsFuel s.length s

/-- `re.sub(r'\s+', ' ', text.strip())`. -/
def collapseWs (s : List Char) : List Char := collapseRuns (stripList s)

/-- The reversed spelling of the literal `Cuota`, used when scanning a line
from its right end. -/
def cuotaRev : List Char := ['a', 't', 'o', 'u', 'C']

/-- `re.sub(r'\s+Cuota\s+\d+/\d+\s*$', '', ·)`: drop a trailing
installment annotation.  The pattern is anchored at the end of the string,
so it is decided by reading the string right to left: optional trailing
whitespace, one-or-more digits, `/`, one-or-more digits, one-or-more
whitespace, the literal `Cuota`, one-or-more whitespace; the leading `\s+`
is greedy towards the left (leftmost match start). -/
def stripTrailingCuota (s : List Char) : List Char :=
  let r := s.reverse
  let r1 := r.dropWhile isWsChar
  let d2 := r1.takeWhile Char.isDigit
  let r2 := r1.dropWhile Char.isDigit
  if d2 = [] then s
  else
    match r2 with
    | '/' :: r3 =>
      let d1 := r3.takeWhile Char.isDigit
      let r4 := r3.dropWhile Char.isDigit
      if d1 = [] then s
      else
        let w2 := r4.takeWhile isWsChar
        let r5 := r4.dropWhile isWsChar
        if w2 = [] then s
        else if cuotaRev.isPrefixOf r5 then
          let r6 := r5.drop 5
          let w1 := r6.takeWhile isWsChar
          if w1 = [] then s else (r6.dropWhile isWsChar).reverse
        else s
    | _ => s

/-- The allow-list of `re.sub(r'[^\w\s\-\.\/*$%]', ' ', ·)` (`\w` taken in
its ASCII meaning). -/
def isAllowedDescChar (c : Char) : Bool :=
  c.isAlphanum || c = '_' || isWsChar c ||
    c = '-' || c = '.' || c = '/' || c = '*' || c = '$' || c = '%'

/-- `utils.clean_description` on character lists. -/
def cleanDescriptionList (s : List Char) : List Char :=
  if s = [] then []
  else
    let t1 := collapseWs s
    let t2 := stripTrailingCuota t1
    let t3 := t2.map (fun ch => if isAllowedDescChar ch then ch else ' ')
    let t4 := collapseWs t3
    stripList t4

/-- `utils.clean_description` on `String`s. -/
def clean_description (s : String) : String := ⟨cleanDescriptionList s.data⟩

/-! ### `utils.parse_date` (src/utils.py lines 32-61, src/config.py) -/

/-- `config.MESES_ES` in its Python insertion order (note that the
abbreviation precedes the full name for every month, exactly as in the
source dict). -/
def MESES_ES : List (String × String) :=
  [("ene", "jan"), ("enero", "january"),
   ("feb", "feb"), ("febrero", "february"),
   ("mar", "mar"), ("marzo", "march"),
   ("abr", "apr"), ("abril", "april"),
   ("may", "may"), ("mayo", "may"),
   ("jun", "jun"), ("junio", "june"),
   ("jul", "jul"), ("julio", "july"),
   ("ago", "aug"), ("agosto", "august"),
   ("sep", "sep"), ("septiembre", "september"),
   ("oct", "oct"), ("octubre", "october"),
   ("nov", "nov"), ("noviembre", "november"),
   ("dic", "dec"), ("diciembre", "december")]

/-- `utils.normalize_spanish_month`: lowercase, then apply every
replacement of `MESES_ES` in dict order. -/
def normalize_spanish_month (s : List Char) : List Char :=
  MESES_ES.foldl (fun t (p : String × String) => replaceAll p.1.data p.2.data t)
    (s.map Char.toLower)

/-- `config.DATE_FORMATS`. -/
def DATE_FORMATS : List String :=
  ["%d/%m/%Y", "%d-%m-%Y", "%d %b %Y", "%d %B %Y", "%Y-%m-%d"]

/-- A strptime format compiled to tokens: literal characters, whitespace
(CPython's `_strptime` turns whitespace in the format into `\s+`), and the
directives occurring in the repository's formats. -/
inductive FmtTok where
  | lit (ch : Char)
  | ws
  | dayD    -- %d
  | monthM  -- %m
  | yearY   -- %Y
  | monB    -- %b
  | monBig  -- %B
  deriving Repr, DecidableEq

/-- Compile a strptime format string into tokens (only `%d %m %Y %b %B`
occur in the configured formats; anything else would raise in Python and
is compiled to an unmatchable literal `'%'`). -/
def compileFmt : List Char → List FmtTok
  | [] => []
  | '%' :: 'd' :: rest => .dayD :: compileFmt rest
  | '%' :: 'm' :: rest => .monthM :: compileFmt rest
  | '%' :: 'Y' :: rest => .yearY :: compileFmt rest
  | '%' :: 'b' :: rest => .monB :: compileFmt rest
  | '%' :: 'B' :: rest => .monBig :: compileFmt rest
  | c :: rest => (if isWsChar c then .ws else .lit c) :: compileFmt rest

/-- Partial date assembled while matching (strptime defaults are year
1900, month 1, day 1). -/
structure DateParts where
  year : Nat := 1900
  month : Nat := 1
  day : Nat := 1
  deriving Repr, DecidableEq

/-- The alternatives of CPython's `%d` regex `3[01]|[12]\d|0[1-9]|[1-9]`,
in order, as (value, rest-of-input) pairs. -/
def dayAlts (s : List Char) : List (Nat × List Char) :=
  (match s with
   | '3' :: c :: rest => if c = '0' ∨ c = '1' then [(30 + (c.toNat - '0'.toNat), rest)] else []
   | _ => []) ++
  (match s with
   | a :: b :: rest =>
     if (a = '1' ∨ a = '2') ∧ b.isDigit then
       [(10 * (a.toNat - '0'.toNat) + (b.toNat - '0'.toNat), rest)]
     else []
   | _ => []) ++
  (match s with
   | '0' :: b :: rest => if b.isDigit ∧ b ≠ '0' then [(b.toNat - '0'.toNat, rest)] else []
   | _ => []) ++
  (match s with
   | a :: rest => if a.isDigit ∧ a ≠ '0' then [(a.toNat - '0'.toNat, rest)] else []
   | _ => [])

/-- The alternatives of CPython's `%m` regex `1[0-2]|0[1-9]|[1-9]`. -/
def monthAlts (s : List Char) : List (Nat × List Char) :=
  (match s with
   | '1' :: c :: rest => if c = '0' ∨ c = '1' ∨ c = '2' then [(10 + (c.toNat - '0'.toNat), rest)] else []
   | _ => []) ++
  (match s with
   | '0' :: b :: rest => if b.isDigit ∧ b ≠ '0' then [(b.toNat - '0'.toNat, rest)] else []
   | _ => []) ++
  (match s with
   | a :: rest => if a.isDigit ∧ a ≠ '0' then [(a.toNat - '0'.toNat, rest)] else []
   | _ => [])

/-- `%Y`: exactly four digits. -/
def yearAlts (s : List Char) : List (Nat × List Char) :=
  match s with
  | a :: b :: c :: d :: rest =>
    if a.isDigit ∧ b.isDigit ∧ c.isDigit ∧ d.isDigit then
      [(natOfDigits [a, b, c, d], rest)]
    else []
  | _ => []

/-- Lowercase English month abbreviations, as matched by `%b` (the input
reaching the matcher was already lowercased by `normalize_spanish_month`;
CPython matches them case-insensitively). -/
def monthAbbrevs : List (String × Nat) :=
  [("jan", 1), ("feb", 2), ("mar", 3), ("apr", 4), ("may", 5), ("jun", 6),
   ("jul", 7), ("aug", 8), ("sep", 9), ("oct", 10), ("nov", 11), ("dec", 12)]

/-- Lowercase full English month names for `%B` (no name is a prefix of
another, so the match order is immaterial). -/
def monthNames : List (String × Nat) :=
  [("january", 1), ("february", 2), ("march", 3), ("april", 4), ("may", 5),
   ("june", 6), ("july", 7), ("august", 8), ("september", 9), ("october", 10),
   ("november", 11), ("december", 12)]

/-- Name-table alternatives for `%b`/`%B`. -/
def nameAlts (table : List (String × Nat)) (s : List Char) : List (Nat × List Char) :=
  table.filterMap (fun p =>
    if p.1.data.isPrefixOf s then some (p.2, s.drop p.1.data.length) else none)

/-- All whitespace-run splits for a `\s+` in the regex, greedy (longest)
first. -/
def wsSplits (s : List Char) : List (List Char) :=
  let n := (s.takeWhile isWsChar).length
  (List.range n).map (fun k => s.drop (n - k))

/-- Backtracking matcher for a compiled format against the whole input
(CPython raises on unconverted trailing data, so a match must consume the
input exactly).  Returns the possible `DateParts` in regex preference
order. -/
def matchToks : List FmtTok → List Char → DateParts → List DateParts
  | [], [], p => [p]
  | [], _ :: _, _ => []
  | .lit ch :: ts, c :: rest, p => if c = ch then matchToks ts rest p else []
  | .lit _ :: _, [], _ => []
  | .ws :: ts, s, p => (wsSplits s).flatMap (fun rest => matchToks ts rest p)
  | .dayD :: ts, s, p =>
    (dayAlts s).flatMap (fun a => matchToks ts a.2 { p with day := a.1 })
  | .monthM :: ts, s, p =>
    (monthAlts s).flatMap (fun a => matchToks ts a.2 { p with month := a.1 })
  | .yearY :: ts, s, p =>
    (yearAlts s).flatMap (fun a => matchToks ts a.2 { p with year := a.1 })
  | .monB :: ts, s, p =>
    (nameAlts monthAbbrevs s).flatMap (fun a => matchToks ts a.2 { p with month := a.1 })
  | .monBig :: ts, s, p =>
    (nameAlts monthNames s).flatMap (fun a => matchToks ts a.2 { p with month := a.1 })

/-- A calendar date as produced by a successful `datetime.strptime` (the
time-of-day components are always zero here and are omitted). -/
structure DateYMD where
  year : Nat
  month : Nat
  day : Nat
  deriving Repr, DecidableEq

/-- Gregorian leap-year rule, as `datetime` validates day-of-month. -/
def isLeapYear (y : Nat) : Bool := y % 4 = 0 ∧ (y % 100 ≠ 0 ∨ y % 400 = 0)

/-- Days in a month for `datetime`'s day validation. -/
def daysInMonth (y m : Nat) : Nat :=
  if m = 2 then (if isLeapYear y then 29 else 28)
  else if m = 4 ∨ m = 6 ∨ m = 9 ∨ m = 11 then 30
  else 31

/-- The `datetime(...)` constructor validation on the matched fields
(month range is already enforced by the regex, day-of-month is not). -/
def mkDateYMD (p : DateParts) : Option DateYMD :=
  if 1 ≤ p.year ∧ 1 ≤ p.month ∧ p.month ≤ 12 ∧ 1 ≤ p.day ∧ p.day ≤ daysInMonth p.year p.month
  then some ⟨p.year, p.month, p.day⟩ else none

/-- `datetime.strptime(input, fmt)` for the formats the repository uses:
`none` models a raised `ValueError`. -/
def strptime (input : List Char) (fmt : List Char) : Option DateYMD :=
  match matchToks (compileFmt fmt) input {} with
  | [] => none
  | p :: _ => mkDateYMD p

/-- The `for fmt in formats_to_try` loop of `parse_date`: first format
that parses wins. -/
def tryFormats (t : List Char) : List (List Char) → Option DateYMD
  | [] => none
  | f :: fs =>
    match strptime t f with
    | some d => some d
    | none => tryFormats t fs

/-- `utils.parse_date`: strip, normalize Spanish months, then try every
format in order; `formats = []` models Python's `formats=None` default
(in both cases `formats or DATE_FORMATS` picks the configured list). -/
def parse_date (s : List Char) (formats : List (List Char)) : Option DateYMD :=
  if s = [] then none
  else
    let t := stripList s
    if t = [] then none
    else
      let t2 := normalize_spanish_month t
      let fmts := if formats = [] then DATE_FORMATS.map String.data else formats
      tryFormats t2 fmts

/-- `utils.parse_date` on `String`s. -/
def parse_date_str (s : String) (formats : List String) : Option DateYMD :=
  parse_date s.data (formats.map String.data)

/-! ### A tiny backtracking matcher toolkit for the `re` patterns of
`src/extractors/base.py`.

A matcher sends an input to the list of possible remainders after a
match of the pattern piece, in the preference order of Python's
backtracking engine (greedy quantifiers: longest first; alternation and
optionals: left/present first).  A full-pattern success is the first
remainder accepted by the continuation, which reproduces `re` semantics
for the concrete patterns used here. -/

/-- Single character from a class. -/
def mChar (p : Char → Bool) : List Char → List (List Char)
  | [] => []
  | c :: rest => if p c then [rest] else []

/-- Concatenation (preference order is the backtracking order). -/
def mSeq (a b : List Char → List (List Char)) : List Char → List (List Char) :=
  fun s => (a s).flatMap b

def mStarFuel (a : List Char → List (List Char)) : Nat → List Char → List (List Char)
  | 0, s => [s]
  | fuel + 1, s =>
    ((a s).filter (fun r => r.length < s.length)).flatMap
      (fun r => mStarFuel a fuel r) ++ [s]

/-- Greedy `*`: as many iterations as possible first; every iteration
must consume input (the remainders are filtered to be shorter), so
`s.length` fuel always suffices and only makes the recursion
structural. -/
def mStar (a : List Char → List (List Char)) (s : List Char) : List (List Char) :=
  mStarFuel a s.length s

/-- Greedy `+`. -/
def mPlus (a : List Char → List (List Char)) : List Char → List (List Char) :=
  mSeq a (mStar a)

/-- Greedy `?`. -/
def mOpt (a : List Char → List (List Char)) : List Char → List (List Char) :=
  fun s => a s ++ [s]

/-- Literal word. -/
def mLit (l : List Char) : List Char → List (List Char) :=
  fun s => if l.isPrefixOf s then [s.drop l.length] else []

/-- Exactly `n` repetitions. -/
def mCount (a : List Char → List (List Char)) : Nat → List Char → List (List Char)
  | 0 => fun s => [s]
  | n + 1 => mSeq a (mCount a n)

/-- `{lo,hi}` greedy counted repetition (longest first). -/
def mRep (a : List Char → List (List Char)) (lo hi : Nat) : List Char → List (List Char) :=
  fun s => ((List.range (hi + 1 - lo)).map (fun k => hi - k)).flatMap (fun n => mCount a n s)

/-- `\s+`. -/
def mWsPlus : List Char → List (List Char) := mPlus (mChar isWsChar)

/-- `\s*$` (what remains must be whitespace only). -/
def allWs (s : List Char) : Bool := s.all isWsChar

/-! ### The movement record (the dicts built in
`src/extractors/base.py` lines 214-222 and 381-388).

`titular` is the optional `'titular'` key: `""` models an absent key
(the source only ever tests it by truthiness, and non-empty names are the
only values ever stored).  The metadata keys `archivo_origen`/`banco`
are stamped by `BaseExtractor.extract_movements` outside the modelled
core and are omitted. -/
structure Movement where
  fecha : Option DateYMD := none
  comprobante : String := ""
  descripcion : String := ""
  importe : ℚ := 0
  cuota : String := ""
  moneda : String := ""
  titular : String := ""
  deriving Repr, DecidableEq

instance : Inhabited Movement := ⟨{}⟩

/-! ### `TextBasedExtractor` internals (src/extractors/base.py) -/

/-- `[\d.,_]` of the second group of the double-amount pattern. -/
def isAmt2Char (c : Char) : Bool := isAmountChar c || c = '_'

/-- `[.\d,\-]` of the single-amount pattern. -/
def isSimpleAmtChar (c : Char) : Bool := isAmountChar c || c = '-'

/-- `[\d.,]+` -/
def mAmtChars : List Char → List (List Char) := mPlus (mChar isAmountChar)

/-- Trailing `\s*_?\s*$` shared by the amount patterns (deterministic:
no starred piece can steal characters from the next one here). -/
def looksTail (s : List Char) : Bool :=
  let r1 := s.dropWhile isWsChar
  let r2 := if r1.head? = some '_' then r1.tail else r1
  allWs r2

/-- One amount of `_looks_like_movement`:
`[\d]{1,3}(?:\.[\d]{3})*(?:,[\d]{2})?\-?`. -/
def mMonto : List Char → List (List Char) :=
  mSeq (mRep (mChar Char.isDigit) 1 3)
    (mSeq (mStar (mSeq (mLit ['.']) (mCount (mChar Char.isDigit) 3)))
      (mSeq (mOpt (mSeq (mLit [',']) (mCount (mChar Char.isDigit) 2)))
        (mOpt (mLit ['-']))))

/-- The parenthesised part of the `_looks_like_movement` search pattern:
`monto(?:\s+(?:monto|_))?`. -/
def looksGroup : List Char → List (List Char) :=
  mSeq mMonto (mOpt (mSeq mWsPlus (fun s => mMonto s ++ mLit ['_'] s)))

/-- `TextBasedExtractor._looks_like_movement` (base.py lines 253-270). -/
def looks_like_movement (line : List Char) : Bool :=
  (103 ≤ line.length && line.length ≤ 124) &&
    (List.range (line.length + 1)).any (fun i =>
      (looksGroup (line.drop i)).any looksTail)

/-- What a sub-matcher consumed, given the input and the remainder. -/
def takeConsumed (t r : List Char) : List Char := t.take (t.length - r.length)

/-- `([\d.,]+\-?)\s+([\d.,_]+\-?)\s*_?\s*$` anchored at the head of `t`;
returns both captured groups. -/
def montoDobleAt (t : List Char) : Option (List Char × List Char) :=
  (mSeq mAmtChars (mOpt (mLit ['-'])) t).findSome? (fun r1 =>
    (mWsPlus r1).findSome? (fun r2 =>
      (mSeq (mPlus (mChar isAmt2Char)) (mOpt (mLit ['-'])) r2).findSome? (fun r3 =>
        if looksTail r3 then some (takeConsumed t r1, takeConsumed r2 r3) else none)))

/-- `re.search` of the double-amount pattern: first group, second group
and match start (= start of the first group). -/
def montoDobleSearch (t : List Char) : Option (List Char × List Char × Nat) :=
  (List.range (t.length + 1)).findSome? (fun i =>
    (montoDobleAt (t.drop i)).map (fun g => (g.1, g.2, i)))

/-- `([.\d,\-]+)\s*$` anchored at the head of `t`. -/
def montoSimpleAt (t : List Char) : Option (List Char) :=
  (mPlus (mChar isSimpleAmtChar) t).findSome? (fun r =>
    if allWs r then some (takeConsumed t r) else none)

/-- `re.search` of the single-amount pattern: group and match start. -/
def montoSimpleSearch (t : List Char) : Option (List Char × Nat) :=
  (List.range (t.length + 1)).findSome? (fun i =>
    (montoSimpleAt (t.drop i)).map (fun g => (g, i)))

/-- `^\d{1,3}(?:\.\d{3})*(?:,\d{2})?$` (the Argentine digit-grouping
validation of base.py line 319). -/
def validMontoShape (c : List Char) : Bool :=
  (mSeq (mRep (mChar Char.isDigit) 1 3)
    (mSeq (mStar (mSeq (mLit ['.']) (mCount (mChar Char.isDigit) 3)))
      (mOpt (mSeq (mLit [',']) (mCount (mChar Char.isDigit) 2)))) c).any (· = [])

/-- Steps of base.py lines 312-322: detect the trailing `-`, strip the
group to `[\d,.]`, validate the shape, and rebuild `monto_str`; `none`
models the early `return movements` on a malformed shape. -/
def montoStrOf (raw : List Char) : Option (List Char) :=
  let isNeg := raw.getLast? = some '-'
  let r := if isNeg then raw.dropLast else raw
  let cl := r.filter isAmountChar
  if validMontoShape cl then some (cl ++ if isNeg then ['-'] else []) else none

/-- `\s+(?:Cuota\s+)?(\d{2}/\d{2})\s*$` anchored at the head of `t`;
returns the captured installment tag. -/
def cuotaMatchAt (t : List Char) : Option (List Char) :=
  (mSeq mWsPlus (mOpt (mSeq (mLit "Cuota".data) mWsPlus)) t).findSome? (fun r1 =>
    match r1 with
    | a :: b :: '/' :: c :: d :: r2 =>
      if a.isDigit && b.isDigit && c.isDigit && d.isDigit && allWs r2 then
        some [a, b, '/', c, d]
      else none
    | _ => none)

/-- `re.search` of the installment pattern (base.py line 329): captured
group and match start (used to truncate the line). -/
def cuotaSearch (l : List Char) : Option (List Char × Nat) :=
  (List.range (l.length + 1)).findSome? (fun i =>
    (cuotaMatchAt (l.drop i)).map (fun g => (g, i)))

/-- `[A-Za-z0-9_]` for `\w` (ASCII). -/
def isWordChar (c : Char) : Bool := c.isAlphanum || c = '_'

/-- `re.match(r'^(\w+\*?[KX]?)', sub)` (base.py line 348). -/
def comprobanteMatch (sub : List Char) : Option (List Char) :=
  let w := sub.takeWhile isWordChar
  if w = [] then none
  else
    let r := sub.drop w.length
    let star : List Char := if r.head? = some '*' then ['*'] else []
    let r2 := if r.head? = some '*' then r.tail else r
    let kx : List Char :=
      match r2.head? with
      | some c => if c = 'K' ∨ c = 'X' then [c] else []
      | none => []
    some (w ++ star ++ kx)

/-- `^(\d{2}\.\d{2}\.\d{2})$` on the stripped 8-character date slice
(base.py line 358), split into day/month/year digit pairs. -/
def fechaSlice (s : List Char) : Option (List Char × List Char × List Char) :=
  match s with
  | [a, b, '.', c, d, '.', e, f] =>
    if a.isDigit && b.isDigit && c.isDigit && d.isDigit && e.isDigit && f.isDigit then
      some ([a, b], [c, d], [e, f])
    else none
  | _ => none

/-- base.py lines 382-394: the final guard and record construction of
`_parse_by_fixed_positions`, split out so the amount provenance can be
reasoned about symbolically. -/
def parseWithMontoFinal (fecha_final : Option DateYMD)
    (comprobante descripcion_final cuota montoStr : List Char) : List Movement :=
  match extract_amount montoStr with
  | none => []
  | some q =>
    if descripcion_final ≠ [] then
      [{ fecha := fecha_final, comprobante := ⟨comprobante⟩,
         descripcion := ⟨descripcion_final⟩, importe := q,
         cuota := ⟨cuota⟩, moneda := "ARS" }]
    else []

/-- base.py lines 312-394: everything `_parse_by_fixed_positions` does
after the amount group `montoRaw` has been located at absolute column
`montoStartPos`. -/
def parseWithMonto (originalLine : List Char) (montoRaw : List Char)
    (montoStartPos : Nat) : List Movement :=
  match montoStrOf montoRaw with
  | none => []
  | some montoStr =>
    let line1 := rstripList (originalLine.take montoStartPos)
    let cuota : List Char :=
      match cuotaSearch line1 with
      | some (g, _) => g
      | none => []
    let line2 :=
      match cuotaSearch line1 with
      | some (_, start) => rstripList (line1.take start)
      | none => line1
    let descripcion : List Char :=
      if line2.length > 31 then stripList (line2.drop 31) else []
    let line3 := if line2.length > 31 then rstripList (line2.take 31) else line2
    let comprobante : List Char :=
      if line3.length > 20 then
        match comprobanteMatch (stripList (line3.drop 20)) with
        | some g => g
        | none => []
      else []
    let line4 := if line3.length > 20 then rstripList (line3.take 20) else line3
    let fecha_final : Option DateYMD :=
      if line4.length ≥ 15 then
        match fechaSlice (stripList ((line4.drop 7).take 8)) with
        | some (d, m, y) =>
          parse_date (d ++ '/' :: m ++ '/' :: '2' :: '0' :: y) ["%d/%m/%Y".data]
        | none => none
      else none
    let descripcion_final0 :=
      if descripcion ≠ [] then descripcion
      else stripList (originalLine.take montoStartPos)
    let descripcion_final := cleanDescriptionList descripcion_final0
    parseWithMontoFinal fecha_final comprobante descripcion_final cuota montoStr

/-- `TextBasedExtractor._parse_by_fixed_positions` (base.py lines
272-394); `min_amount_pos = 80`. -/
def parse_by_fixed_positions (line : List Char) : List Movement :=
  if line = [] ∨ (stripList line).length < 10 then []
  else
    match montoDobleSearch (line.drop 80) with
    | some (g1, _, st) => parseWithMonto line g1 (80 + st)
    | none =>
      match montoSimpleSearch (line.drop 80) with
      | some (g1, st) => parseWithMonto line g1 (80 + st)
      | none => []

/-- The lazy-group search body of `_extract_titular_info` (base.py line
247): `Total\s+Consumos\s+de\s+(.+?)\s+([\d.,]+)` anchored at the head of
`t`; returns group 1.  The lazy `(.+?)` prefers the shortest capture. -/
def titularAt (t : List Char) : Option (List Char) :=
  (mSeq (mLit "Total".data)
    (mSeq mWsPlus
      (mSeq (mLit "Consumos".data)
        (mSeq mWsPlus (mSeq (mLit "de".data) mWsPlus)))) t).findSome? (fun r =>
    (List.range r.length).findSome? (fun k =>
      let g := r.take (k + 1)
      (mWsPlus (r.drop (k + 1))).findSome? (fun r2 =>
        match r2 with
        | c :: _ => if isAmountChar c then some g else none
        | [] => none)))

/-- `TextBasedExtractor._extract_titular_info` (base.py lines 239-251). -/
def extract_titular_info (line : List Char) : Option (List Char) :=
  if containsSub "Total Consumos de".data line && containsSub "Tarjeta".data line then
    (List.range (line.length + 1)).findSome? (fun i =>
      (titularAt (line.drop i)).map stripList)
  else none

/-- The pseudo-movement built for a cardholder header (base.py lines
214-222). -/
def pseudoMovement (nombre : List Char) : Movement :=
  { fecha := none, comprobante := "", descripcion := "", importe := 0,
    cuota := "", moneda := "", titular := ⟨nombre⟩ }

/-- Section-start test (base.py line 189): all three header tokens on one
line. -/
def isSectionStart (line : List Char) : Bool :=
  containsSub "FECHA".data line && containsSub "COMPROBANTE".data line &&
    containsSub "DETALLE".data line

/-- Section-end test (base.py lines 197-201). -/
def isSectionEnd (line : List Char) : Bool :=
  containsSub "DEBITAREMOS DE SU".data line || containsSub "Plan V:".data line ||
    containsSub "CFTEA".data line || containsSub "Condiciones vigentes".data line ||
    containsSub "Estimado Cliente".data line

/-- The line loop of `_extract_movements_from_text` (base.py lines
183-233), with the `in_movement_section` flag as explicit state. -/
def scanLines : Bool → List (List Char) → List Movement
  | _, [] => []
  | inSec, line :: rest =>
    if stripList line = [] then scanLines inSec rest
    else if !inSec then
      if isSectionStart line then scanLines true rest else scanLines false rest
    else if isSectionEnd line then scanLines false rest
    else
      match extract_titular_info line with
      | some nombre => pseudoMovement nombre :: scanLines true rest
      | none =>
        if looks_like_movement line then
          parse_by_fixed_positions line ++ scanLines true rest
        else scanLines true rest

/-- `TextBasedExtractor._extract_movements_from_text` (base.py lines
167-237). -/
def extract_movements_from_text (text : List Char) : List Movement :=
  scanLines false (splitOnChar '\n' text)

/-- `TextBasedExtractor._extract_text_from_pages` (base.py lines
143-165): concatenate the page texts, skipping pages whose
`extract_text` returned `None`. -/
def extract_text_from_pages (pages : List (Option (List Char))) : List Char :=
  pages.foldl (fun acc p => match p with | some t => acc ++ t | none => acc) []

/-- `BaseExtractor._extract_pages_from_pdf` (base.py lines 74-94): the
document reader either yields the page list or raises, in which case the
`except` branch returns `[]`. -/
def extract_pages_from_pdf (openResult : Except String (List (Option (List Char)))) :
    List (Option (List Char)) :=
  match openResult with
  | .ok pages => pages
  | .error _ => []

/-- `TextBasedExtractor._extract_movements_from_file` (base.py lines
116-141). -/
def extract_movements_from_file (openResult : Except String (List (Option (List Char)))) :
    List Movement :=
  let pages := extract_pages_from_pdf openResult
  if pages = [] then []
  else extract_movements_from_text (extract_text_from_pages pages)

/-! ### `PatagoniaExtractor` post-processing (src/extractors/patagonia.py,
patterns from src/config.py) -/

/-- Token-sequence patterns: each configured regex is a list of literal
words separated by `\s+` (the escaped `\.`/`\$` are plain characters of
the adjacent word).  `matchTokensAt` is anchored at the head of the
input; since no token starts with whitespace, consuming each maximal
whitespace run is equivalent to the regex's greedy `\s+`. -/
def matchTokensAt : List (List Char) → List Char → Bool
  | [], _ => true
  | [t], s => t.isPrefixOf s
  | t :: t2 :: ts, s =>
    t.isPrefixOf s &&
      (let s1 := (s.drop t.length)
       decide (s1.takeWhile isWsChar ≠ []) &&
         matchTokensAt (t2 :: ts) (s1.dropWhile isWsChar))

/-- `re.search` for a token-sequence pattern. -/
def searchTokens (tokens : List (List Char)) (s : List Char) : Bool :=
  (List.range (s.length + 1)).any (fun i => matchTokensAt tokens (s.drop i))

/-- `config.BANK_CONFIGS["Patagonia"]["saldo_patterns"]`:
`SALDO\s+ANTERIOR` and `SU\s+PAGO\s+EN\s+PESOS`. -/
def saldoPatterns : List (List (List Char)) :=
  [["SALDO".data, "ANTERIOR".data],
   ["SU".data, "PAGO".data, "EN".data, "PESOS".data]]

/-- `config.BANK_CONFIGS["Patagonia"]["cargos_patterns"]`:
`COMIS\.\s+PROD\.\s+PAT`, `IVA\s+\$\s+21`, `INTERESES\s+FINANCIACION`,
`IMP\s+DE\s+SELLOS`. -/
def cargosPatterns : List (List (List Char)) :=
  [["COMIS.".data, "PROD.".data, "PAT".data],
   ["IVA".data, "$".data, "21".data],
   ["INTERESES".data, "FINANCIACION".data],
   ["IMP".data, "DE".data, "SELLOS".data]]

/-- The per-movement test of `_extract_saldo_anterior` (patagonia.py
lines 146-154): any saldo pattern found in the uppercased description. -/
def matchesSaldo (m : Movement) : Bool :=
  saldoPatterns.any (fun p => searchTokens p (m.descripcion.data.map Char.toUpper))

/-- The per-movement test of `_extract_cargos_bancarios` (patagonia.py
lines 169-177). -/
def matchesCargos (m : Movement) : Bool :=
  cargosPatterns.any (fun p => searchTokens p (m.descripcion.data.map Char.toUpper))

/-- The `for i, mov in enumerate(movements)` collection loop shared by
the removal passes: indices (from `i0`) of the elements matching `p`, in
ascending order. -/
def collectIdxs {α : Type} (p : α → Bool) : Nat → List α → List Nat
  | _, [] => []
  | i, a :: rest =>
    if p a then i :: collectIdxs p (i + 1) rest else collectIdxs p (i + 1) rest

/-- `for i in reversed(indices): del movements[i]` — the passes always
feed the collected (ascending) index list reversed. -/
def eraseIdxs {α : Type} (l : List α) (idxs : List Nat) : List α :=
  idxs.foldl (fun acc i => acc.eraseIdx i) l

/-- The accumulated total of a removal pass: sum of `importe` over the
matched movements, in iteration order. -/
def sumMatched (p : Movement → Bool) : List Movement → ℚ
  | [] => 0
  | m :: rest => (if p m then m.importe else 0) + sumMatched p rest

/-- `PatagoniaExtractor._extract_saldo_anterior` (patagonia.py lines
139-160). -/
def extract_saldo_anterior (movements : List Movement) : ℚ × List Movement :=
  (sumMatched matchesSaldo movements,
   eraseIdxs movements (collectIdxs matchesSaldo 0 movements).reverse)

/-- `PatagoniaExtractor._extract_cargos_bancarios` (patagonia.py lines
162-183). -/
def extract_cargos_bancarios (movements : List Movement) : ℚ × List Movement :=
  (sumMatched matchesCargos movements,
   eraseIdxs movements (collectIdxs matchesCargos 0 movements).reverse)

/-- A movement is a cardholder pseudo-record when its `'titular'` entry
is truthy (patagonia.py `mov.get('titular')`). -/
def isPseudo (m : Movement) : Bool := m.titular ≠ ""

/-- One cardholder attribution range (the `titulares_data` entries of
patagonia.py lines 199-203). -/
structure TitularRange where
  nombre : String
  primer : Nat
  ultimo : Nat
  deriving Repr, DecidableEq

/-- First pass of `_assign_titular_to_movements_advanced` (patagonia.py
lines 194-210): walk the list with the running index `i` and the mutable
`primer_movimiento`, emitting the ranges and the pseudo-record indices in
order. -/
def titularFirstPass : Nat → Nat → List Movement → List TitularRange × List Nat
  | _, _, [] => ([], [])
  | i, primer, m :: rest =>
    if isPseudo m then
      if primer < i then
        let r := titularFirstPass (i + 1) (i + 1) rest
        ({ nombre := m.titular, primer := primer, ultimo := i - 1 } :: r.1, i :: r.2)
      else
        let primer2 := if primer = i then i + 1 else primer
        let r := titularFirstPass (i + 1) primer2 rest
        (r.1, i :: r.2)
    else
      titularFirstPass (i + 1) primer rest

/-- `mov['titular'] = ""` initialisation (patagonia.py lines 213-214). -/
def blankTitulares (ms : List Movement) : List Movement :=
  ms.map (fun m => { m with titular := "" })

/-- Range stamping (patagonia.py lines 216-222): index `i` runs over
`range(max(0, inicio), min(len(movements), fin + 1))`. -/
def stampFrom (r : TitularRange) : Nat → List Movement → List Movement
  | _, [] => []
  | i, m :: rest =>
    (if r.primer ≤ i ∧ i ≤ r.ultimo then { m with titular := r.nombre } else m)
      :: stampFrom r (i + 1) rest

/-- `PatagoniaExtractor._assign_titular_to_movements_advanced`
(patagonia.py lines 185-228). -/
def assign_titular (movements : List Movement) : List Movement :=
  let fp := titularFirstPass 0 0 movements
  let stamped := fp.1.foldl (fun ms r => stampFrom r 0 ms) (blankTitulares movements)
  eraseIdxs stamped fp.2.reverse

/-- The balance/minimum-payment scan state of patagonia.py lines 75-84:
`saldo_actual`, `pago_minimo` (last match wins) and the collected indices
`saldo_movements`. -/
def saldoScanStep (acc : Option ℚ × Option ℚ × List Nat) (im : Nat × Movement) :
    Option ℚ × Option ℚ × List Nat :=
  if containsSub "SALDO ACTUAL".data im.2.descripcion.data then
    (some im.2.importe, acc.2.1, acc.2.2 ++ [im.1])
  else if containsSub "PAGO MINIMO".data im.2.descripcion.data then
    (acc.1, some im.2.importe, acc.2.2 ++ [im.1])
  else acc

/-- The loop of patagonia.py lines 75-84. -/
def saldoScan (ms : List Movement) : Option ℚ × Option ℚ × List Nat :=
  ms.enum.foldl saldoScanStep (none, none, [])

/-- `resumen_info` (patagonia.py lines 51-118): the reconciliation
snapshot stored on the extractor; `diferencia_validacion`/`validacion_ok`
are only set when a stated balance was captured. -/
structure ResumenInfo where
  saldo_anterior : ℚ
  cargos_bancarios : ℚ
  saldo_actual : Option ℚ
  pago_minimo : Option ℚ
  total_consumos : ℚ
  bonificaciones : ℚ
  saldo_calculado : ℚ
  diferencia_validacion : Option ℚ
  validacion_ok : Option Bool
  deriving Repr, DecidableEq

/-- `sum(mov['importe'] for mov in movements if mov['importe'] > 0)`. -/
def sumPos (ms : List Movement) : ℚ :=
  ((ms.filter (fun m => 0 < m.importe)).map (fun m => m.importe)).sum

/-- `sum(mov['importe'] for mov in movements if mov['importe'] < 0)`. -/
def sumNeg (ms : List Movement) : ℚ :=
  ((ms.filter (fun m => m.importe < 0)).map (fun m => m.importe)).sum

/-- `PatagoniaExtractor.extract` after the PDF movements have been
obtained (patagonia.py lines 46-137): the early `return` on an empty
list leaves `last_resumen_info` unset, modelled as `none`. -/
def patagoniaProcess (movements : List Movement) : List Movement × Option ResumenInfo :=
  if movements = [] then (movements, none)
  else
    let saldo_anterior := (extract_saldo_anterior movements).1
    let ms1 := (extract_saldo_anterior movements).2
    let total_cargos := (extract_cargos_bancarios ms1).1
    let ms2 := (extract_cargos_bancarios ms1).2
    let saldo_actual := (saldoScan ms2).1
    let pago_minimo := (saldoScan ms2).2.1
    let ms3 := eraseIdxs ms2 (saldoScan ms2).2.2.reverse
    let ms4 := assign_titular ms3
    let total_consumos := sumPos ms4
    let bonificaciones := sumNeg ms4
    let saldo_calculado := saldo_anterior + total_consumos + bonificaciones + total_cargos
    (ms4, some
      { saldo_anterior := saldo_anterior
        cargos_bancarios := total_cargos
        saldo_actual := saldo_actual
        pago_minimo := pago_minimo
        total_consumos := total_consumos
        bonificaciones := bonificaciones
        saldo_calculado := saldo_calculado
        diferencia_validacion := saldo_actual.map (fun s => |saldo_calculado - s|)
        validacion_ok := saldo_actual.map (fun s => decide (|saldo_calculado - s| ≤ 1)) })

/-! ### Structural lemmas about the index-collecting removal passes and
the attribution stamping -/

/-- Reference form of "delete the collected positions": keep the elements
of `l'` at the positions where `p` fails on `l`. -/
def selectKeep {α β : Type} (p : α → Bool) : List α → List β → List β
  | a :: as, b :: bs =>
    if p a then selectKeep p as bs else b :: selectKeep p as bs
  | _, _ => []

theorem collectIdxs_shift {α : Type} (p : α → Bool) (l : List α) (i : Nat) :
    collectIdxs p (i + 1) l = (collectIdxs p i l).map (· + 1) := by
  induction l generalizing i with
  | nil => simp [collectIdxs]
  | cons a as ih =>
    by_cases h : p a <;> simp [collectIdxs, h, ih]

theorem eraseIdxs_map_succ {α : Type} (ds : List Nat) (b : α) (bs : List α) :
    eraseIdxs (b :: bs) (ds.map (· + 1)) = b :: eraseIdxs bs ds := by
  induction ds generalizing b bs with
  | nil => rfl
  | cons d ds ih =>
    simp only [List.map_cons, eraseIdxs, List.foldl_cons, List.eraseIdx_cons_succ]
    exact ih b (bs.eraseIdx d)

theorem eraseIdxs_nil {α : Type} (l : List α) : eraseIdxs l [] = l := rfl

theorem eraseIdxs_cons {α : Type} (l : List α) (i : Nat) (is : List Nat) :
    eraseIdxs l (i :: is) = eraseIdxs (l.eraseIdx i) is := rfl

theorem eraseIdxs_append {α : Type} (l : List α) (xs ys : List Nat) :
    eraseIdxs l (xs ++ ys) = eraseIdxs (eraseIdxs l xs) ys :=
  List.foldl_append _ _ _ _

theorem eraseIdxs_collect_reverse {α β : Type} (p : α → Bool) :
    ∀ (l : List α) (l' : List β), l.length = l'.length →
      eraseIdxs l' (collectIdxs p 0 l).reverse = selectKeep p l l' := by
  intro l
  induction l with
  | nil =>
    intro l' hl
    have : l' = [] := List.eq_nil_of_length_eq_zero hl.symm
    subst this
    rfl
  | cons a as ih =>
    intro l' hl
    match l' with
    | [] => simp at hl
    | b :: bs =>
      have hlen : as.length = bs.length := by simpa using hl
      by_cases h : p a
      · have hc : collectIdxs p 0 (a :: as) = 0 :: (collectIdxs p 0 as).map (· + 1) := by
          simp [collectIdxs, h, collectIdxs_shift]
        have hrev : (0 :: (collectIdxs p 0 as).map (· + 1)).reverse
            = (collectIdxs p 0 as).reverse.map (· + 1) ++ [0] := by
          simp
        rw [hc, hrev, eraseIdxs_append, eraseIdxs_map_succ, eraseIdxs_cons]
        simp only [List.eraseIdx_cons_zero, eraseIdxs_nil]
        rw [ih bs hlen]
        simp [selectKeep, h]
      · have hc : collectIdxs p 0 (a :: as) = (collectIdxs p 0 as).map (· + 1) := by
          simp [collectIdxs, h, collectIdxs_shift]
        have hrev : ((collectIdxs p 0 as).map (· + 1)).reverse
            = (collectIdxs p 0 as).reverse.map (· + 1) := by
          simp
        rw [hc, hrev, eraseIdxs_map_succ, ih bs hlen]
        simp [selectKeep, h]

theorem selectKeep_self {α : Type} (p : α → Bool) (l : List α) :
    selectKeep p l l = l.filter (fun a => !p a) := by
  induction l with
  | nil => rfl
  | cons a as ih =>
    by_cases h : p a <;> simp [selectKeep, h, ih, List.filter_cons]

theorem selectKeep_append {α β : Type} (p : α → Bool) :
    ∀ (as : List α) (bs : List β) (as' : List α) (bs' : List β),
      as.length = bs.length →
      selectKeep p (as ++ as') (bs ++ bs') =
        selectKeep p as bs ++ selectKeep p as' bs' := by
  intro as
  induction as with
  | nil =>
    intro bs as' bs' h
    have : bs = [] := List.eq_nil_of_length_eq_zero h.symm
    subst this
    rfl
  | cons a atl ih =>
    intro bs as' bs' h
    match bs with
    | [] => simp at h
    | b :: btl =>
      have hlen : atl.length = btl.length := by simpa using h
      by_cases hp : p a <;>
        simp [selectKeep, hp, ih btl as' bs' hlen]

theorem collectIdxs_nil_of_none {α : Type} (p : α → Bool) :
    ∀ (l : List α) (i : Nat), (∀ a ∈ l, p a = false) →
      collectIdxs p i l = [] := by
  intro l
  induction l with
  | nil => intro i _; rfl
  | cons a as ih =>
    intro i h
    have ha : p a = false := h a (List.mem_cons_self a as)
    simp only [collectIdxs, ha, if_neg, Bool.false_eq_true, not_false_iff]
    exact ih (i + 1) (fun x hx => h x (List.mem_cons_of_mem a hx))

theorem titularFirstPass_removes (ms : List Movement) :
    ∀ (i primer : Nat), (titularFirstPass i primer ms).2 = collectIdxs isPseudo i ms := by
  induction ms with
  | nil => intro i primer; rfl
  | cons m rest ih =>
    intro i primer
    by_cases h : isPseudo m
    · by_cases hp : primer < i <;>
        simp [titularFirstPass, h, hp, collectIdxs, ih]
    · simp [titularFirstPass, h, collectIdxs, ih]

theorem titularFirstPass_ranges_nil (ms : List Movement)
    (hnone : ∀ m ∈ ms, isPseudo m = false) :
    ∀ (i primer : Nat), (titularFirstPass i primer ms).1 = [] := by
  induction ms with
  | nil => intro i primer; rfl
  | cons m rest ih =>
    intro i primer
    have hm : isPseudo m = false := hnone m (List.mem_cons_self m rest)
    have hrest : ∀ x ∈ rest, isPseudo x = false :=
      fun x hx => hnone x (List.mem_cons_of_mem m hx)
    simp [titularFirstPass, hm, ih hrest]

theorem titularFirstPass_ranges_pseudo (ms : List Movement) :
    ∀ (i primer : Nat) (r : TitularRange), r ∈ (titularFirstPass i primer ms).1 →
      ∃ k m, ms[k]? = some m ∧ isPseudo m = true ∧ r.ultimo + 1 = i + k := by
  induction ms with
  | nil => intro i primer r hr; simp [titularFirstPass] at hr
  | cons m rest ih =>
    intro i primer r hr
    by_cases h : isPseudo m
    · by_cases hp : primer < i
      · simp only [titularFirstPass, h, if_pos, hp] at hr
        rcases List.mem_cons.mp hr with heq | htl
        · refine ⟨0, m, by simp, h, ?_⟩
          subst heq
          simp only []
          omega
        · obtain ⟨k, m', hk, hps, hu⟩ := ih (i + 1) (i + 1) r htl
          exact ⟨k + 1, m', by simpa using hk, hps, by omega⟩
      · simp only [titularFirstPass, h, if_pos, hp, if_neg] at hr
        obtain ⟨k, m', hk, hps, hu⟩ :=
          ih (i + 1) (if primer = i then i + 1 else primer) r hr
        exact ⟨k + 1, m', by simpa using hk, hps, by omega⟩
    · simp only [titularFirstPass, h, Bool.false_eq_true, if_neg, not_false_iff] at hr
      obtain ⟨k, m', hk, hps, hu⟩ := ih (i + 1) primer r hr
      exact ⟨k + 1, m', by simpa using hk, hps, by omega⟩

theorem stampFrom_length (r : TitularRange) :
    ∀ (i : Nat) (l : List Movement), (stampFrom r i l).length = l.length := by
  intro i l
  induction l generalizing i with
  | nil => rfl
  | cons m rest ih => simp [stampFrom, ih]

theorem stampFrom_past (r : TitularRange) :
    ∀ (l : List Movement) (i : Nat), r.ultimo < i → stampFrom r i l = l := by
  intro l
  induction l with
  | nil => intro i _; rfl
  | cons m rest ih =>
    intro i hi
    have hcond : ¬(r.primer ≤ i ∧ i ≤ r.ultimo) := by omega
    simp [stampFrom, hcond, ih (i + 1) (by omega)]

theorem stampFrom_append (r : TitularRange) :
    ∀ (as bs : List Movement) (i : Nat), r.ultimo < i + as.length →
      stampFrom r i (as ++ bs) = stampFrom r i as ++ bs := by
  intro as
  induction as with
  | nil =>
    intro bs i h
    simp only [List.nil_append, List.length_nil, Nat.add_zero] at h ⊢
    exact stampFrom_past r bs i h
  | cons a atl ih =>
    intro bs i h
    simp only [List.cons_append, stampFrom, List.length_cons, List.append_eq] at h ⊢
    rw [ih bs (i + 1) (by omega)]

theorem foldl_stamp_length (rs : List TitularRange) :
    ∀ (l : List Movement),
      (rs.foldl (fun ms r => stampFrom r 0 ms) l).length = l.length := by
  induction rs with
  | nil => intro l; rfl
  | cons r rest ih =>
    intro l
    rw [List.foldl_cons, ih, stampFrom_length]

theorem foldl_stamp_append (rs : List TitularRange) :
    ∀ (as bs : List Movement), (∀ r ∈ rs, r.ultimo < as.length) →
      rs.foldl (fun ms r => stampFrom r 0 ms) (as ++ bs) =
        rs.foldl (fun ms r => stampFrom r 0 ms) as ++ bs := by
  induction rs with
  | nil => intro as bs _; rfl
  | cons r rest ih =>
    intro as bs h
    have hr : r.ultimo < as.length := h r (List.mem_cons_self r rest)
    rw [List.foldl_cons, List.foldl_cons,
      stampFrom_append r as bs 0 (by simpa using hr),
      ih (stampFrom r 0 as) bs]
    intro r' hr'
    rw [stampFrom_length]
    exact h r' (List.mem_cons_of_mem r hr')

theorem movement_blank_eq_self (m : Movement) (h : m.titular = "") :
    ({ m with titular := "" } : Movement) = m := by
  cases m
  simp_all

theorem blankTitulares_eq_self (ms : List Movement)
    (h : ∀ m ∈ ms, m.titular = "") : blankTitulares ms = ms := by
  induction ms with
  | nil => rfl
  | cons m rest ih =>
    simp only [blankTitulares, List.map_cons]
    rw [movement_blank_eq_self m (h m (List.mem_cons_self m rest))]
    have := ih (fun x hx => h x (List.mem_cons_of_mem m hx))
    simp only [blankTitulares] at this
    rw [this]

/-! ### Claim-supporting lemmas and concrete inputs -/

theorem scanLines_outside (lines : List (List Char))
    (h : ∀ l ∈ lines, isSectionStart l = false) :
    scanLines false lines = [] := by
  induction lines with
  | nil => rfl
  | cons l rest ih =>
    have hl : isSectionStart l = false := h l (List.mem_cons_self l rest)
    have hrest : ∀ x ∈ rest, isSectionStart x = false :=
      fun x hx => h x (List.mem_cons_of_mem l hx)
    by_cases hb : stripList l = []
    · simp [scanLines, hb, ih hrest]
    · simp [scanLines, hb, hl, ih hrest]

theorem sumMatched_eq (p : Movement → Bool) (ms : List Movement) :
    sumMatched p ms = ((ms.filter p).map (fun m => m.importe)).sum := by
  induction ms with
  | nil => rfl
  | cons m rest ih =>
    by_cases h : p m <;> simp [sumMatched, List.filter_cons, h, ih]

/-- A plain transaction record as the fixed-position parser emits it. -/
def mkTxn (d : String) (q : ℚ) : Movement :=
  { descripcion := d, importe := q, moneda := "ARS" }

/-- The C1 scenario: transactions at indices 0-2, the `Ana` pseudo-record
at index 3 followed by transactions at 4-5, the `Luis` pseudo-record at
index 6 followed by transactions at 7-9. -/
def c1Input : List Movement :=
  [mkTxn "T0" 1, mkTxn "T1" 2, mkTxn "T2" 3,
   pseudoMovement "Ana".data,
   mkTxn "T4" 4, mkTxn "T5" 5,
   pseudoMovement "Luis".data,
   mkTxn "T7" 6, mkTxn "T8" 7, mkTxn "T9" 8]

/-! ### The claims -/

/-- C8.  Zero-page tolerance: when the PDF cannot be opened (the reader
raised and `_extract_pages_from_pdf` returned `[]`), or when the document
yields zero pages, `_extract_movements_from_file` returns an empty record
list; in the embedding the function is total, so no exception propagates. -/
theorem claim_C8 (e : String) :
    extract_movements_from_file (Except.error e) = [] ∧
    extract_movements_from_file (Except.ok []) = [] :=
  ⟨rfl, rfl⟩

/-- Witness for C8 at a concrete error value. -/
theorem claim_C8_witness :
    extract_movements_from_file (Except.error "cannot open") = [] :=
  (claim_C8 "cannot open").1

/-- C7.  Movement-section scanner never-emit property: if no line of the
document contains the three header tokens `FECHA`, `COMPROBANTE`,
`DETALLE` simultaneously (`isSectionStart`), the scan stays in the
outside-section state and `_extract_movements_from_text` returns `[]`,
whatever else the document contains. -/
theorem claim_C7 (text : List Char)
    (h : ∀ line ∈ splitOnChar '\n' text, isSectionStart line = false) :
    extract_movements_from_text text = [] :=
  scanLines_outside (splitOnChar '\n' text) h

/-- Witness for C7: a concrete header-free document. -/
theorem claim_C7_witness :
    extract_movements_from_text "FECHA y DETALLE solamente\nTarjeta 123\n  \nCOMPROBANTE".data = [] :=
  claim_C7 _ (by decide)

/-- `_extract_saldo_anterior` as matched-sum plus positional filter. -/
theorem extract_saldo_eq (ms : List Movement) :
    extract_saldo_anterior ms =
      (((ms.filter matchesSaldo).map (fun m => m.importe)).sum,
        ms.filter (fun m => !matchesSaldo m)) := by
  unfold extract_saldo_anterior
  rw [sumMatched_eq, eraseIdxs_collect_reverse matchesSaldo ms ms rfl,
    selectKeep_self]

/-- `_extract_cargos_bancarios` as matched-sum plus positional filter. -/
theorem extract_cargos_eq (ms : List Movement) :
    extract_cargos_bancarios ms =
      (((ms.filter matchesCargos).map (fun m => m.importe)).sum,
        ms.filter (fun m => !matchesCargos m)) := by
  unfold extract_cargos_bancarios
  rw [sumMatched_eq, eraseIdxs_collect_reverse matchesCargos ms ms rfl,
    selectKeep_self]

/-- C10.  Frame property of the removal passes: both
`_extract_saldo_anterior` and `_extract_cargos_bancarios` return exactly
the matching movements' `importe` sum together with the list of the
non-matching movements, unchanged and in their original order. -/
theorem claim_C10 (ms : List Movement) :
    extract_saldo_anterior ms =
      (((ms.filter matchesSaldo).map (fun m => m.importe)).sum,
        ms.filter (fun m => !matchesSaldo m)) ∧
    extract_cargos_bancarios ms =
      (((ms.filter matchesCargos).map (fun m => m.importe)).sum,
        ms.filter (fun m => !matchesCargos m)) :=
  ⟨extract_saldo_eq ms, extract_cargos_eq ms⟩

/-- C1, counterexample.  The claim predicts that in the output for
`c1Input` the first two transaction records carry `Ana` and the following
three carry `Luis` (output positions 0-1 and 2-4).  The code instead
attributes each pseudo-record's name to the transactions *preceding* it,
so position 2 carries `Ana`, refuting the prediction. -/
theorem claim_C1_counterexample :
    ¬ ((assign_titular c1Input).map Movement.titular).take 5 =
      ["Ana", "Ana", "Luis", "Luis", "Luis"] := by
  decide

/-- C1, amended.  `_assign_titular_to_movements_advanced` stamps each
pseudo-record's cardholder name onto the transactions between the
previous pseudo-record and it: for `c1Input` the three records before
`Ana`'s pseudo-record carry `Ana`, the two between the pseudo-records
carry `Luis`, the three after the last pseudo-record carry no cardholder,
and neither pseudo-record is present in the output. -/
theorem claim_C1_theorem :
    (assign_titular c1Input).map (fun m => (m.descripcion, m.titular)) =
      [("T0", "Ana"), ("T1", "Ana"), ("T2", "Ana"),
       ("T4", "Luis"), ("T5", "Luis"),
       ("T7", ""), ("T8", ""), ("T9", "")] := by
  decide

/-- `_assign_titular_to_movements_advanced` is the identity on a list
without pseudo-records. -/
theorem assign_titular_id (ms : List Movement) (h : ∀ m ∈ ms, m.titular = "") :
    assign_titular ms = ms := by
  have hnone : ∀ m ∈ ms, isPseudo m = false := by
    intro m hm
    simp [isPseudo, h m hm]
  have h1 : (titularFirstPass 0 0 ms).1 = [] :=
    titularFirstPass_ranges_nil ms hnone 0 0
  have h2 : (titularFirstPass 0 0 ms).2 = [] := by
    rw [titularFirstPass_removes]
    exact collectIdxs_nil_of_none isPseudo ms 0 hnone
  simp only [assign_titular]
  rw [h1, h2]
  simp [eraseIdxs, blankTitulares_eq_self ms h]

/-- C9.  Invariants of `_assign_titular_to_movements_advanced`: every
returned record carries a (string) `titular` field by construction; when
the input has no pseudo-record every output record ends with an empty
cardholder (and the list is returned unchanged); and the transaction
records positioned after the last pseudo-record survive as the unchanged
suffix of the output, still carrying the empty cardholder. -/
theorem claim_C9 (ms : List Movement) :
    ((∀ m ∈ ms, m.titular = "") →
      assign_titular ms = ms ∧ ∀ m ∈ assign_titular ms, m.titular = "") ∧
    (∀ (xs : List Movement) (ps : Movement) (ys : List Movement),
      ms = xs ++ ps :: ys → isPseudo ps = true → (∀ m ∈ ys, m.titular = "") →
      ∃ zs, assign_titular ms = zs ++ ys) := by
  constructor
  · intro h
    have hres : assign_titular ms = ms := assign_titular_id ms h
    exact ⟨hres, by rw [hres]; exact h⟩
  · intro xs ps ys hms hps hys
    subst hms
    have hysPseudo : ∀ m ∈ ys, isPseudo m = false := by
      intro m hm
      simp [isPseudo, hys m hm]
    have hsplit : xs ++ ps :: ys = (xs ++ [ps]) ++ ys := by simp
    have hranges : ∀ r ∈ (titularFirstPass 0 0 (xs ++ ps :: ys)).1,
        r.ultimo < xs.length := by
      intro r hr
      obtain ⟨k, m, hk, hpm, hu⟩ :=
        titularFirstPass_ranges_pseudo (xs ++ ps :: ys) 0 0 r hr
      by_contra hcon
      push_neg at hcon
      have hkL : xs.length + 1 ≤ k := by omega
      rw [hsplit] at hk
      rw [List.getElem?_append_right (by simp; omega)] at hk
      have hmem : m ∈ ys := List.getElem?_mem hk
      rw [hysPseudo m hmem] at hpm
      simp at hpm
    have hblank : blankTitulares (xs ++ ps :: ys) =
        blankTitulares (xs ++ [ps]) ++ ys := by
      rw [hsplit]
      unfold blankTitulares
      rw [List.map_append]
      congr 1
      have := blankTitulares_eq_self ys hys
      unfold blankTitulares at this
      exact this
    have hAlen : (blankTitulares (xs ++ [ps])).length = xs.length + 1 := by
      simp [blankTitulares]
    set W := (titularFirstPass 0 0 (xs ++ ps :: ys)).1.foldl
        (fun l r => stampFrom r 0 l) (blankTitulares (xs ++ [ps])) with hWdef
    have hstamp :
        (titularFirstPass 0 0 (xs ++ ps :: ys)).1.foldl
            (fun l r => stampFrom r 0 l)
            (blankTitulares (xs ++ [ps]) ++ ys) = W ++ ys := by
      rw [hWdef]
      apply foldl_stamp_append
      intro r hr
      rw [hAlen]
      exact Nat.lt_succ_of_lt (hranges r hr)
    have hWlen : W.length = xs.length + 1 := by
      rw [hWdef, foldl_stamp_length, hAlen]
    have hassign : assign_titular (xs ++ ps :: ys) =
        selectKeep isPseudo (xs ++ ps :: ys) (W ++ ys) := by
      simp only [assign_titular]
      rw [titularFirstPass_removes, hblank, hstamp]
      apply eraseIdxs_collect_reverse
      simp only [List.length_append, List.length_cons, hWlen]
      omega
    rw [hassign]
    refine ⟨selectKeep isPseudo (xs ++ [ps]) W, ?_⟩
    have hstep : selectKeep isPseudo (xs ++ ps :: ys) (W ++ ys)
        = selectKeep isPseudo (xs ++ [ps]) W ++ selectKeep isPseudo ys ys := by
      rw [hsplit]
      exact selectKeep_append isPseudo (xs ++ [ps]) W ys ys (by simp [hWlen])
    rw [hstep]
    congr 1
    rw [selectKeep_self]
    refine List.filter_eq_self.mpr ?_
    intro m hm
    simp [hysPseudo m hm]

/-- Witness for C9 at concrete inputs: a pseudo-free list is returned
unchanged, and a list ending in transactions after its only
pseudo-record keeps them as an unchanged suffix. -/
theorem claim_C9_witness :
    (assign_titular [mkTxn "A" 1, mkTxn "B" 2] = [mkTxn "A" 1, mkTxn "B" 2]) ∧
    (∃ zs, assign_titular
        [mkTxn "A" 1, pseudoMovement "Ana".data, mkTxn "B" 2, mkTxn "C" 3] =
      zs ++ [mkTxn "B" 2, mkTxn "C" 3]) :=
  ⟨((claim_C9 [mkTxn "A" 1, mkTxn "B" 2]).1 (by decide)).1,
   (claim_C9 [mkTxn "A" 1, pseudoMovement "Ana".data, mkTxn "B" 2, mkTxn "C" 3]).2
     [mkTxn "A" 1] (pseudoMovement "Ana".data) [mkTxn "B" 2, mkTxn "C" 3]
     rfl (by decide) (by decide)⟩


/-! ### C2: concrete reconciliation scenario computations -/

/-- The C2 synthetic statement: prior balance 1000, charges +500 and -50,
bank charges 25, stated balance 1475. -/
def c2Input1 : List Movement :=
  [mkTxn "SALDO ANTERIOR" 1000, mkTxn "COMPRA LOCAL" 500,
   mkTxn "BONIFICACION CLIENTE" (-50), mkTxn "INTERESES FINANCIACION" 25,
   mkTxn "SALDO ACTUAL" 1475]

/-- The C2 synthetic statement with the stated balance perturbed to 1600. -/
def c2Input2 : List Movement :=
  [mkTxn "SALDO ANTERIOR" 1000, mkTxn "COMPRA LOCAL" 500,
   mkTxn "BONIFICACION CLIENTE" (-50), mkTxn "INTERESES FINANCIACION" 25,
   mkTxn "SALDO ACTUAL" 1600]

theorem c2_saldo_pass1 : extract_saldo_anterior c2Input1 =
    (1000, [mkTxn "COMPRA LOCAL" 500, mkTxn "BONIFICACION CLIENTE" (-50),
      mkTxn "INTERESES FINANCIACION" 25, mkTxn "SALDO ACTUAL" 1475]) := by
  rw [extract_saldo_eq]
  simp only [c2Input1, List.filter_cons,
    (by decide : matchesSaldo (mkTxn "SALDO ANTERIOR" 1000) = true),
    (by decide : matchesSaldo (mkTxn "COMPRA LOCAL" 500) = false),
    (by decide : matchesSaldo (mkTxn "BONIFICACION CLIENTE" (-50)) = false),
    (by decide : matchesSaldo (mkTxn "INTERESES FINANCIACION" 25) = false),
    (by decide : matchesSaldo (mkTxn "SALDO ACTUAL" 1475) = false),
    Bool.not_true, Bool.not_false, Bool.false_eq_true, ite_true, ite_false,
    List.filter_nil, List.map_cons, List.map_nil, List.sum_cons, List.sum_nil]
  norm_num [mkTxn]

theorem c2_saldo_pass2 : extract_saldo_anterior c2Input2 =
    (1000, [mkTxn "COMPRA LOCAL" 500, mkTxn "BONIFICACION CLIENTE" (-50),
      mkTxn "INTERESES FINANCIACION" 25, mkTxn "SALDO ACTUAL" 1600]) := by
  rw [extract_saldo_eq]
  simp only [c2Input2, List.filter_cons,
    (by decide : matchesSaldo (mkTxn "SALDO ANTERIOR" 1000) = true),
    (by decide : matchesSaldo (mkTxn "COMPRA LOCAL" 500) = false),
    (by decide : matchesSaldo (mkTxn "BONIFICACION CLIENTE" (-50)) = false),
    (by decide : matchesSaldo (mkTxn "INTERESES FINANCIACION" 25) = false),
    (by decide : matchesSaldo (mkTxn "SALDO ACTUAL" 1600) = false),
    Bool.not_true, Bool.not_false, Bool.false_eq_true, ite_true, ite_false,
    List.filter_nil, List.map_cons, List.map_nil, List.sum_cons, List.sum_nil]
  norm_num [mkTxn]

theorem c2_cargos_pass (x : ℚ)
    (hx : matchesCargos (mkTxn "SALDO ACTUAL" x) = false) :
    extract_cargos_bancarios
      [mkTxn "COMPRA LOCAL" 500, mkTxn "BONIFICACION CLIENTE" (-50),
        mkTxn "INTERESES FINANCIACION" 25, mkTxn "SALDO ACTUAL" x] =
      (25, [mkTxn "COMPRA LOCAL" 500, mkTxn "BONIFICACION CLIENTE" (-50),
        mkTxn "SALDO ACTUAL" x]) := by
  rw [extract_cargos_eq]
  simp only [List.filter_cons, hx,
    (by decide : matchesCargos (mkTxn "COMPRA LOCAL" 500) = false),
    (by decide : matchesCargos (mkTxn "BONIFICACION CLIENTE" (-50)) = false),
    (by decide : matchesCargos (mkTxn "INTERESES FINANCIACION" 25) = true),
    Bool.not_true, Bool.not_false, Bool.false_eq_true, ite_true, ite_false,
    List.filter_nil, List.map_cons, List.map_nil, List.sum_cons, List.sum_nil]
  norm_num [mkTxn]

theorem c2_saldo_scan (x : ℚ)
    (hx1 : containsSub "SALDO ACTUAL".data (mkTxn "SALDO ACTUAL" x).descripcion.data = true) :
    saldoScan [mkTxn "COMPRA LOCAL" 500, mkTxn "BONIFICACION CLIENTE" (-50),
      mkTxn "SALDO ACTUAL" x] = (some x, none, [2]) := by
  simp only [saldoScan, List.enum, List.enumFrom, saldoScanStep, hx1,
    (by decide : containsSub "SALDO ACTUAL".data (mkTxn "COMPRA LOCAL" 500).descripcion.data = false),
    (by decide : containsSub "SALDO ACTUAL".data (mkTxn "BONIFICACION CLIENTE" (-50)).descripcion.data = false),
    (by decide : containsSub "PAGO MINIMO".data (mkTxn "COMPRA LOCAL" 500).descripcion.data = false),
    (by decide : containsSub "PAGO MINIMO".data (mkTxn "BONIFICACION CLIENTE" (-50)).descripcion.data = false),
    List.foldl_cons, List.foldl_nil, Bool.false_eq_true, ite_true, ite_false,
    List.nil_append,
    (show (mkTxn "SALDO ACTUAL" x).importe = x from rfl)]

theorem c2_tail_passes (x : ℚ) :
    eraseIdxs [mkTxn "COMPRA LOCAL" 500, mkTxn "BONIFICACION CLIENTE" (-50),
      mkTxn "SALDO ACTUAL" x] ([2] : List Nat).reverse =
      [mkTxn "COMPRA LOCAL" 500, mkTxn "BONIFICACION CLIENTE" (-50)] ∧
    assign_titular [mkTxn "COMPRA LOCAL" 500, mkTxn "BONIFICACION CLIENTE" (-50)] =
      [mkTxn "COMPRA LOCAL" 500, mkTxn "BONIFICACION CLIENTE" (-50)] ∧
    sumPos [mkTxn "COMPRA LOCAL" 500, mkTxn "BONIFICACION CLIENTE" (-50)] = 500 ∧
    sumNeg [mkTxn "COMPRA LOCAL" 500, mkTxn "BONIFICACION CLIENTE" (-50)] = -50 := by
  refine ⟨by simp [eraseIdxs, List.eraseIdx], assign_titular_id _ (by decide), ?_, ?_⟩
  · norm_num [sumPos, mkTxn, List.filter_cons]
  · norm_num [sumNeg, mkTxn, List.filter_cons]

set_option maxHeartbeats 1600000 in
/-- C2.  Reconciliation: after the balance, bank-charge and attribution
passes, `extract` computes total charges as the sum of the remaining
positive amounts, total adjustments as the sum of the remaining negative
amounts, the computed balance as their sum with the prior balance and the
bank charges, and — whenever a stated balance was captured — records the
absolute difference and passes exactly when it is at most 1.0.  On the
synthetic statement the computed balance is 1475 with `passed = true`;
with the stated balance perturbed to 1600 it fails with difference 125. -/
theorem claim_C2 :
    (∀ (ms : List Movement) (info : ResumenInfo),
      (patagoniaProcess ms).2 = some info →
        info.total_consumos = sumPos (patagoniaProcess ms).1 ∧
        info.bonificaciones = sumNeg (patagoniaProcess ms).1 ∧
        info.saldo_calculado = info.saldo_anterior + info.total_consumos +
          info.bonificaciones + info.cargos_bancarios ∧
        ∀ s : ℚ, info.saldo_actual = some s →
          info.diferencia_validacion = some |info.saldo_calculado - s| ∧
          (info.validacion_ok = some true ↔ |info.saldo_calculado - s| ≤ 1)) ∧
    (patagoniaProcess c2Input1).2 = some
      { saldo_anterior := 1000, cargos_bancarios := 25,
        saldo_actual := some 1475, pago_minimo := none,
        total_consumos := 500, bonificaciones := -50,
        saldo_calculado := 1475, diferencia_validacion := some 0,
        validacion_ok := some true } ∧
    (patagoniaProcess c2Input2).2 = some
      { saldo_anterior := 1000, cargos_bancarios := 25,
        saldo_actual := some 1600, pago_minimo := none,
        total_consumos := 500, bonificaciones := -50,
        saldo_calculado := 1475, diferencia_validacion := some 125,
        validacion_ok := some false } := by
  refine ⟨?_, ?_, ?_⟩
  · intro ms info h
    by_cases hms : ms = []
    · subst hms
      simp [patagoniaProcess] at h
    · simp only [patagoniaProcess, if_neg hms] at h ⊢
      obtain rfl := (Option.some.inj h).symm
      refine ⟨rfl, rfl, rfl, ?_⟩
      intro s hs
      simp only at hs
      rw [hs]
      constructor
      · simp
      · simp [decide_eq_true_eq]
  · obtain ⟨e4, e5, e6, e7⟩ := c2_tail_passes 1475
    have hne : ¬ (c2Input1 = []) := by simp [c2Input1]
    simp only [patagoniaProcess, if_neg hne, c2_saldo_pass1,
      c2_cargos_pass 1475 (by decide), c2_saldo_scan 1475 (by decide),
      e4, e5, e6, e7]
    simp only [Option.some.injEq, ResumenInfo.mk.injEq, Option.map_some]
    norm_num
  · obtain ⟨e4, e5, e6, e7⟩ := c2_tail_passes 1600
    have hne : ¬ (c2Input2 = []) := by simp [c2Input2]
    simp only [patagoniaProcess, if_neg hne, c2_saldo_pass2,
      c2_cargos_pass 1600 (by decide), c2_saldo_scan 1600 (by decide),
      e4, e5, e6, e7]
    simp only [Option.some.injEq, ResumenInfo.mk.injEq, Option.map_some]
    norm_num

/-- Witness for C2: the general reconciliation equations instantiated on
the concrete passing statement. -/
theorem claim_C2_witness :
    ({ saldo_anterior := 1000, cargos_bancarios := 25,
       saldo_actual := some 1475, pago_minimo := none,
       total_consumos := 500, bonificaciones := -50,
       saldo_calculado := 1475, diferencia_validacion := some 0,
       validacion_ok := some true } : ResumenInfo).saldo_calculado =
      (1000 : ℚ) + 500 + -50 + 25 ∧
    (({ saldo_anterior := 1000, cargos_bancarios := 25,
        saldo_actual := some 1475, pago_minimo := none,
        total_consumos := 500, bonificaciones := -50,
        saldo_calculado := 1475, diferencia_validacion := some 0,
        validacion_ok := some true } : ResumenInfo).validacion_ok = some true ↔
      |(1475 : ℚ) - 1475| ≤ 1) := by
  have h := (claim_C2.1 c2Input1 _ claim_C2.2.1)
  exact ⟨h.2.2.1, (h.2.2.2 1475 rfl).2⟩

theorem tryFormats_none (t : List Char) :
    ∀ fs : List (List Char), (∀ f ∈ fs, strptime t f = none) →
      tryFormats t fs = none := by
  intro fs
  induction fs with
  | nil => intro _; rfl
  | cons f rest ih =>
    intro h
    have hf : strptime t f = none := h f (List.mem_cons_self f rest)
    simp only [tryFormats, hf]
    exact ih (fun x hx => h x (List.mem_cons_of_mem f hx))

/-- C5, counterexample.  With the default format list,
`parse_date("15 ene. 2025")` does not return the calendar date
2025-01-15 (it returns `None`): the month normalisation yields
`"15 jan. 2025"` and no configured format tolerates the period after the
abbreviated month. -/
theorem claim_C5_counterexample :
    ¬ parse_date "15 ene. 2025".data [] = some ⟨2025, 1, 15⟩ := by
  decide

/-- C5, amended.  `parse_date("15 ene. 2025")` with the default format
list returns `None` (the dotted Spanish abbreviation matches no default
format), and for every input string that matches none of the configured
formats after normalisation — including the empty string — `parse_date`
returns `None`; the embedding is a total function, so no exception can
propagate. -/
theorem claim_C5_theorem :
    parse_date "15 ene. 2025".data [] = none ∧
    ∀ s : List Char,
      (∀ f ∈ DATE_FORMATS, strptime (normalize_spanish_month (stripList s)) f.data = none) →
      parse_date s [] = none := by
  refine ⟨by decide, ?_⟩
  intro s h
  unfold parse_date
  by_cases hs : s = []
  · simp [hs]
  · simp only [if_neg hs]
    by_cases ht : stripList s = []
    · simp [ht]
    · simp only [if_neg ht, if_pos rfl]
      apply tryFormats_none
      intro f hf
      obtain ⟨g, hg, rfl⟩ := List.mem_map.mp hf
      exact h g hg

/-- Witness for C5: a concrete string matching no configured format. -/
theorem claim_C5_witness : parse_date "hola mundo".data [] = none :=
  claim_C5_theorem.2 "hola mundo".data (by decide)

/-! ### C4 support: structural facts about `collapseRuns` and
`stripList` -/

theorem collapseRunsFuel_nil (f : Nat) : collapseRunsFuel f [] = [] := by
  cases f <;> rfl

theorem collapseRunsFuel_congr :
    ∀ (f1 f2 : Nat) (l : List Char), l.length ≤ f1 → l.length ≤ f2 →
      collapseRunsFuel f1 l = collapseRunsFuel f2 l := by
  intro f1
  induction f1 with
  | zero =>
    intro f2 l h1 _
    have : l = [] := List.eq_nil_of_length_eq_zero (Nat.le_zero.mp h1)
    subst this
    rw [collapseRunsFuel_nil, collapseRunsFuel_nil]
  | succ f1 ih =>
    intro f2 l h1 h2
    match l with
    | [] => rw [collapseRunsFuel_nil, collapseRunsFuel_nil]
    | c :: rest =>
      match f2 with
      | 0 => simp at h2
      | f2 + 1 =>
        simp only [collapseRunsFuel]
        by_cases hc : isWsChar c
        · simp only [hc, if_pos]
          have hle : (rest.dropWhile isWsChar).length ≤ rest.length :=
            dropWhile_length_le isWsChar rest
          have h1' : (rest.dropWhile isWsChar).length ≤ f1 := by
            simp only [List.length_cons] at h1
            omega
          have h2' : (rest.dropWhile isWsChar).length ≤ f2 := by
            simp only [List.length_cons] at h2
            omega
          rw [ih f2 _ h1' h2']
        · simp only [hc, if_neg, Bool.false_eq_true, not_false_iff]
          have h1' : rest.length ≤ f1 := by
            simp only [List.length_cons] at h1
            omega
          have h2' : rest.length ≤ f2 := by
            simp only [List.length_cons] at h2
            omega
          rw [ih f2 rest h1' h2']

theorem collapseRuns_nil : collapseRuns [] = [] := rfl

theorem collapseRuns_cons (c : Char) (rest : List Char) :
    collapseRuns (c :: rest) =
      if isWsChar c then ' ' :: collapseRuns (rest.dropWhile isWsChar)
      else c :: collapseRuns rest := by
  unfold collapseRuns
  simp only [List.length_cons, collapseRunsFuel]
  by_cases hc : isWsChar c
  · simp only [hc, if_pos]
    rw [collapseRunsFuel_congr rest.length (rest.dropWhile isWsChar).length
      (rest.dropWhile isWsChar) (dropWhile_length_le isWsChar rest) (Nat.le_refl _)]
  · simp only [hc, if_neg, Bool.false_eq_true, not_false_iff]

theorem collapseRuns_ne_nil (l : List Char) (h : l ≠ []) :
    collapseRuns l ≠ [] := by
  match l with
  | c :: rest =>
    rw [collapseRuns_cons]
    by_cases hc : isWsChar c <;> simp [hc]

theorem dropWhile_head_false (p : Char → Bool) :
    ∀ (l : List Char) (c : Char) (t : List Char),
      l.dropWhile p = c :: t → p c = false := by
  intro l
  induction l with
  | nil => intro c t h; simp [List.dropWhile] at h
  | cons a rest ih =>
    intro c t h
    cases hpa : p a with
    | true =>
      simp only [List.dropWhile, hpa] at h
      exact ih c t h
    | false =>
      simp only [List.dropWhile, hpa] at h
      cases h
      exact hpa

theorem dropWhile_self_of_head (p : Char → Bool) (l : List Char)
    (h : ∀ c t, l = c :: t → p c = false) : l.dropWhile p = l := by
  match l with
  | [] => rfl
  | c :: t =>
    have := h c t rfl
    simp [List.dropWhile, this]

theorem dropWhile_idem (p : Char → Bool) (l : List Char) :
    (l.dropWhile p).dropWhile p = l.dropWhile p := by
  apply dropWhile_self_of_head
  intro c t h
  exact dropWhile_head_false p l c t h

theorem dropWhile_is_suffix (p : Char → Bool) :
    ∀ l : List Char, ∃ t, t ++ l.dropWhile p = l := by
  intro l
  induction l with
  | nil => exact ⟨[], rfl⟩
  | cons a rest ih =>
    by_cases ha : p a
    · obtain ⟨t, ht⟩ := ih
      exact ⟨a :: t, by simp [List.dropWhile, ha, ht]⟩
    · exact ⟨[], by simp [List.dropWhile, ha]⟩

theorem mem_dropWhile (p : Char → Bool) (l : List Char) (c : Char)
    (h : c ∈ l.dropWhile p) : c ∈ l := by
  obtain ⟨t, ht⟩ := dropWhile_is_suffix p l
  rw [← ht]
  exact List.mem_append_right t h

theorem getLast?_append_right (l₁ l₂ : List Char) (h : l₂ ≠ []) :
    (l₁ ++ l₂).getLast? = l₂.getLast? := by
  induction l₁ with
  | nil => rfl
  | cons a rest ih =>
    rw [List.cons_append, List.getLast?_cons, ih]
    match l₂, h with
    | c :: t, _ =>
      cases hr : rest ++ c :: t with
      | nil => simp at hr
      | cons b bs => simp [List.getLast?_cons, hr]

/-- "Every last character is non-whitespace" (vacuous for `[]`). -/
def LastNonWs (l : List Char) : Prop :=
  ∀ d, l.getLast? = some d → isWsChar d = false

theorem getLast?_dropWhile (p : Char → Bool) (l : List Char)
    (h : l.dropWhile p ≠ []) : (l.dropWhile p).getLast? = l.getLast? := by
  obtain ⟨t, ht⟩ := dropWhile_is_suffix p l
  conv_rhs => rw [← ht]
  rw [getLast?_append_right t _ h]

theorem lastNonWs_dropWhile (p : Char → Bool) (l : List Char)
    (h : LastNonWs l) : LastNonWs (l.dropWhile p) := by
  intro d hd
  by_cases hn : l.dropWhile p = []
  · rw [hn] at hd
    simp at hd
  · rw [getLast?_dropWhile p l hn] at hd
    exact h d hd

theorem dropWhile_ne_nil_of_lastNonWs (l : List Char) (hne : l ≠ [])
    (h : LastNonWs l) : l.dropWhile isWsChar ≠ [] := by
  intro hcon
  have hall : ∀ c ∈ l, isWsChar c = true := by
    intro c hc
    exact List.dropWhile_eq_nil_iff.mp hcon c hc
  match l, hne with
  | c :: rest, _ =>
    have hlast := List.getLast?_eq_getLast (c :: rest) (by simp)
    have hmem : (c :: rest).getLast (by simp) ∈ c :: rest := List.getLast_mem _
    have := h _ hlast
    rw [hall _ hmem] at this
    simp at this

theorem collapseRuns_lastNonWs :
    ∀ (n : Nat) (l : List Char), l.length ≤ n → LastNonWs l →
      LastNonWs (collapseRuns l) := by
  intro n
  induction n with
  | zero =>
    intro l hl _
    have : l = [] := List.eq_nil_of_length_eq_zero (Nat.le_zero.mp hl)
    subst this
    intro d hd
    simp [collapseRuns_nil] at hd
  | succ n ih =>
    intro l hl hlast
    match l with
    | [] =>
      intro d hd
      simp [collapseRuns_nil] at hd
    | c :: rest =>
      rw [collapseRuns_cons]
      by_cases hc : isWsChar c
      · simp only [hc, if_pos]
        -- the run is non-terminal: rest cannot be all-whitespace
        have hrne : rest ≠ [] := by
          intro hcon
          subst hcon
          have := hlast c (by simp)
          rw [hc] at this
          simp at this
        have hrest_last : LastNonWs rest := by
          intro d hd
          apply hlast
          match rest, hrne with
          | b :: bs, _ => simpa [List.getLast?_cons_cons] using hd
        have hdne : rest.dropWhile isWsChar ≠ [] :=
          dropWhile_ne_nil_of_lastNonWs rest hrne hrest_last
        have hdlast : LastNonWs (rest.dropWhile isWsChar) :=
          lastNonWs_dropWhile isWsChar rest hrest_last
        have hlen : (rest.dropWhile isWsChar).length ≤ n := by
          have := dropWhile_length_le isWsChar rest
          simp only [List.length_cons] at hl
          omega
        have hcoll : LastNonWs (collapseRuns (rest.dropWhile isWsChar)) :=
          ih _ hlen hdlast
        intro d hd
        have hcne : collapseRuns (rest.dropWhile isWsChar) ≠ [] :=
          collapseRuns_ne_nil _ hdne
        match hm : collapseRuns (rest.dropWhile isWsChar), hcne with
        | b :: bs, _ =>
          rw [hm] at hd
          rw [List.getLast?_cons_cons] at hd
          apply hcoll
          rw [hm]
          exact hd
      · simp only [hc, if_neg, Bool.false_eq_true, not_false_iff]
        by_cases hrne : rest = []
        · subst hrne
          intro d hd
          simp only [collapseRuns_nil] at hd
          have hdc : c = d := by simpa using hd
          subst hdc
          exact hlast c (by simp)
        · have hrest_last : LastNonWs rest := by
            intro d hd
            apply hlast
            match rest, hrne with
            | b :: bs, _ => simpa [List.getLast?_cons_cons] using hd
          have hlen : rest.length ≤ n := by
            simp only [List.length_cons] at hl
            omega
          have hcoll := ih rest hlen hrest_last
          intro d hd
          have hcne : collapseRuns rest ≠ [] := collapseRuns_ne_nil rest hrne
          match hm : collapseRuns rest, hcne with
          | b :: bs, _ =>
            rw [hm] at hd
            rw [List.getLast?_cons_cons] at hd
            apply hcoll
            rw [hm]
            exact hd

/-- "A non-empty list starts with a non-whitespace character" (vacuous
for `[]`). -/
def HeadNonWs (l : List Char) : Prop :=
  ∀ d, l.head? = some d → isWsChar d = false

theorem headNonWs_dropWhile_ws (l : List Char) :
    HeadNonWs (l.dropWhile isWsChar) := by
  intro d hd
  match hm : l.dropWhile isWsChar with
  | [] => rw [hm] at hd; simp at hd
  | c :: t =>
    rw [hm] at hd
    simp only [List.head?_cons, Option.some.injEq] at hd
    subst hd
    exact dropWhile_head_false isWsChar l c t hm

theorem dropWhile_eq_self_of_headNonWs (l : List Char) (h : HeadNonWs l) :
    l.dropWhile isWsChar = l := by
  match l with
  | [] => rfl
  | c :: t =>
    have := h c (by simp)
    simp [List.dropWhile, this]

theorem stripList_headNonWs (x : List Char) : HeadNonWs (stripList x) := by
  intro d hd
  unfold stripList at hd
  rw [List.head?_reverse] at hd
  by_cases hn : ((x.dropWhile isWsChar).reverse.dropWhile isWsChar) = []
  · rw [hn] at hd
    simp at hd
  · rw [getLast?_dropWhile isWsChar _ hn, List.getLast?_reverse] at hd
    exact headNonWs_dropWhile_ws x d hd

theorem stripList_lastNonWs (x : List Char) : LastNonWs (stripList x) := by
  intro d hd
  unfold stripList at hd
  rw [List.getLast?_reverse] at hd
  exact headNonWs_dropWhile_ws _ d hd

theorem stripList_eq_self (l : List Char) (hh : HeadNonWs l)
    (hl : LastNonWs l) : stripList l = l := by
  unfold stripList
  rw [dropWhile_eq_self_of_headNonWs l hh]
  have hrev : HeadNonWs l.reverse := by
    intro d hd
    rw [List.head?_reverse] at hd
    exact hl d hd
  rw [dropWhile_eq_self_of_headNonWs l.reverse hrev, List.reverse_reverse]

theorem mem_stripList (x : List Char) (c : Char) (h : c ∈ stripList x) :
    c ∈ x := by
  unfold stripList at h
  rw [List.mem_reverse] at h
  have h2 := mem_dropWhile isWsChar _ c h
  rw [List.mem_reverse] at h2
  exact mem_dropWhile isWsChar x c h2

theorem collapseRuns_headNonWs (l : List Char) (h : HeadNonWs l) :
    HeadNonWs (collapseRuns l) := by
  intro d hd
  match l with
  | [] => rw [collapseRuns_nil] at hd; simp at hd
  | c :: rest =>
    have hc : isWsChar c = false := h c (by simp)
    rw [collapseRuns_cons] at hd
    simp only [hc, Bool.false_eq_true, if_neg, not_false_iff,
      List.head?_cons, Option.some.injEq] at hd
    subst hd
    exact hc

theorem collapseRuns_idem :
    ∀ (n : Nat) (l : List Char), l.length ≤ n →
      collapseRuns (collapseRuns l) = collapseRuns l := by
  intro n
  induction n with
  | zero =>
    intro l hl
    have : l = [] := List.eq_nil_of_length_eq_zero (Nat.le_zero.mp hl)
    subst this
    rfl
  | succ n ih =>
    intro l hl
    match l with
    | [] => rfl
    | c :: rest =>
      rw [collapseRuns_cons]
      by_cases hc : isWsChar c
      · simp only [hc, if_pos]
        rw [collapseRuns_cons]
        simp only [(by decide : isWsChar ' ' = true), if_pos]
        have hfix : (collapseRuns (rest.dropWhile isWsChar)).dropWhile isWsChar =
            collapseRuns (rest.dropWhile isWsChar) := by
          apply dropWhile_eq_self_of_headNonWs
          apply collapseRuns_headNonWs
          exact headNonWs_dropWhile_ws rest
        rw [hfix]
        have hlen : (rest.dropWhile isWsChar).length ≤ n := by
          have := dropWhile_length_le isWsChar rest
          simp only [List.length_cons] at hl
          omega
        rw [ih _ hlen]
      · simp only [hc, Bool.false_eq_true, if_neg, not_false_iff]
        rw [collapseRuns_cons]
        simp only [hc, Bool.false_eq_true, if_neg, not_false_iff]
        have hlen : rest.length ≤ n := by
          simp only [List.length_cons] at hl
          omega
        rw [ih rest hlen]

theorem mem_collapseRuns :
    ∀ (n : Nat) (l : List Char), l.length ≤ n →
      ∀ c ∈ collapseRuns l, c = ' ' ∨ c ∈ l := by
  intro n
  induction n with
  | zero =>
    intro l hl c hc
    have : l = [] := List.eq_nil_of_length_eq_zero (Nat.le_zero.mp hl)
    subst this
    rw [collapseRuns_nil] at hc
    simp at hc
  | succ n ih =>
    intro l hl c hc
    match l with
    | [] => rw [collapseRuns_nil] at hc; simp at hc
    | a :: rest =>
      rw [collapseRuns_cons] at hc
      by_cases ha : isWsChar a
      · simp only [ha, if_pos, List.mem_cons] at hc
        rcases hc with rfl | hc
        · exact Or.inl rfl
        · have hlen : (rest.dropWhile isWsChar).length ≤ n := by
            have := dropWhile_length_le isWsChar rest
            simp only [List.length_cons] at hl
            omega
          rcases ih _ hlen c hc with h | h
          · exact Or.inl h
          · exact Or.inr (List.mem_cons_of_mem a (mem_dropWhile isWsChar rest c h))
      · simp only [ha, Bool.false_eq_true, if_neg, not_false_iff, List.mem_cons] at hc
        rcases hc with rfl | hc
        · exact Or.inr (List.mem_cons_self c rest)
        · have hlen : rest.length ≤ n := by
            simp only [List.length_cons] at hl
            omega
          rcases ih rest hlen c hc with h | h
          · exact Or.inl h
          · exact Or.inr (List.mem_cons_of_mem a h)

theorem map_allowed_id (l : List Char)
    (h : ∀ c ∈ l, isAllowedDescChar c = true) :
    l.map (fun ch => if isAllowedDescChar ch then ch else ' ') = l := by
  induction l with
  | nil => rfl
  | cons a rest ih =>
    have ha := h a (List.mem_cons_self a rest)
    simp only [List.map_cons, ha, if_pos]
    rw [ih (fun c hc => h c (List.mem_cons_of_mem a hc))]

theorem step4_output_allowed (l : List Char) :
    ∀ c ∈ l.map (fun ch => if isAllowedDescChar ch then ch else ' '),
      isAllowedDescChar c = true := by
  intro c hc
  obtain ⟨d, _, rfl⟩ := List.mem_map.mp hc
  by_cases hd : isAllowedDescChar d
  · simp [hd]
  · simp [hd]
    decide

/-- The output of `clean_description` is a fixed point of both the
whitespace collapsing and the stripping steps, and all its characters
are in the allow-list. -/
theorem cleanDescriptionList_normal (x : List Char) :
    collapseRuns (cleanDescriptionList x) = cleanDescriptionList x ∧
    stripList (cleanDescriptionList x) = cleanDescriptionList x ∧
    (∀ c ∈ cleanDescriptionList x, isAllowedDescChar c = true) := by
  by_cases hx : x = []
  · subst hx
    refine ⟨rfl, rfl, ?_⟩
    intro c hc
    simp [cleanDescriptionList] at hc
  · have hunfold : cleanDescriptionList x =
        stripList (collapseRuns (stripList
          ((stripTrailingCuota (collapseWs x)).map
            (fun ch => if isAllowedDescChar ch then ch else ' ')))) := by
      simp only [cleanDescriptionList, if_neg hx, collapseWs]
    set t3 := (stripTrailingCuota (collapseWs x)).map
      (fun ch => if isAllowedDescChar ch then ch else ' ') with ht3
    set w := stripList t3 with hw
    -- the collapsed form has non-whitespace first and last characters,
    -- so the final strip is the identity and the result is collapsed
    have hwhead : HeadNonWs w := stripList_headNonWs t3
    have hwlast : LastNonWs w := stripList_lastNonWs t3
    have hzhead : HeadNonWs (collapseRuns w) := collapseRuns_headNonWs w hwhead
    have hzlast : LastNonWs (collapseRuns w) :=
      collapseRuns_lastNonWs w.length w (Nat.le_refl _) hwlast
    have hstrip : stripList (collapseRuns w) = collapseRuns w :=
      stripList_eq_self _ hzhead hzlast
    have hy : cleanDescriptionList x = collapseRuns w := by
      rw [hunfold]
      exact hstrip
    refine ⟨?_, ?_, ?_⟩
    · rw [hy]
      exact collapseRuns_idem w.length w (Nat.le_refl _)
    · rw [hy]
      exact hstrip
    · intro c hc
      rw [hy] at hc
      rcases mem_collapseRuns w.length w (Nat.le_refl _) c hc with rfl | hc2
      · decide
      · exact step4_output_allowed _ c (mem_stripList t3 c hc2)

/-- Conditional idempotence of `clean_description` on character lists:
a second application changes nothing as long as the first result does
not still end in a removable `Cuota d/d` annotation. -/
theorem cleanDescriptionList_idem (x : List Char)
    (h : stripTrailingCuota (cleanDescriptionList x) = cleanDescriptionList x) :
    cleanDescriptionList (cleanDescriptionList x) = cleanDescriptionList x := by
  obtain ⟨hcoll, hstrip, hchars⟩ := cleanDescriptionList_normal x
  by_cases hy : cleanDescriptionList x = []
  · rw [hy]
    rfl
  · conv_lhs => rw [cleanDescriptionList]
    rw [if_neg hy]
    simp only [collapseWs]
    rw [hstrip, hcoll, h, map_allowed_id _ hchars, hstrip, hcoll, hstrip]

/-- C4, counterexample.  `clean_description` is not idempotent: the
trailing-installment removal strips only the last `Cuota d/d`
annotation, so a second application can strip another one. -/
theorem claim_C4_counterexample :
    ¬ clean_description (clean_description "A Cuota 1/2 Cuota 3/4") =
      clean_description "A Cuota 1/2 Cuota 3/4" := by
  decide

/-- C4, amended.  `clean_description` is idempotent on every input whose
cleaned form does not still end in a removable installment annotation
(equivalently: whenever the trailing-`Cuota` removal step is a no-op on
the first result); in general a second application can only strip one
further trailing `Cuota d/d` annotation. -/
theorem claim_C4_theorem (s : String)
    (h : stripTrailingCuota (clean_description s).data = (clean_description s).data) :
    clean_description (clean_description s) = clean_description s := by
  unfold clean_description
  congr 1
  exact cleanDescriptionList_idem s.data h

/-- Witness for C4 at a concrete input with noise characters whose
cleaned form ends in no installment annotation. -/
theorem claim_C4_witness :
    clean_description (clean_description "  COMPRA   SUPER*  (hola)  123!! ") =
      clean_description "  COMPRA   SUPER*  (hola)  123!! " :=
  claim_C4_theorem "  COMPRA   SUPER*  (hola)  123!! " (by decide)

/-! ### C3 support: facts about `splitOnChar`, `pyFloat` and the
separator rules of `convertCleaned` -/

theorem not_mem_of_all (p : Char → Bool) (l : List Char)
    (hall : l.all p = true) (c : Char) (hc : p c = false) : c ∉ l := by
  intro hmem
  have := List.all_eq_true.mp hall c hmem
  rw [hc] at this
  exact Bool.false_ne_true this

theorem splitOnChar_not_mem (sep : Char) :
    ∀ l : List Char, sep ∉ l → splitOnChar sep l = [l] := by
  intro l
  induction l with
  | nil => intro _; rfl
  | cons c rest ih =>
    intro h
    have hc : ¬ c = sep := fun hcon => h (hcon ▸ List.mem_cons_self c rest)
    have hrest : sep ∉ rest := fun hcon => h (List.mem_cons_of_mem c hcon)
    simp only [splitOnChar, if_neg hc, ih hrest]

theorem splitOnChar_append (sep : Char) :
    ∀ (A B : List Char), sep ∉ A →
      splitOnChar sep (A ++ sep :: B) = A :: splitOnChar sep B := by
  intro A
  induction A with
  | nil =>
    intro B _
    simp [splitOnChar]
  | cons a rest ih =>
    intro B h
    have ha : ¬ a = sep := fun hcon => h (hcon ▸ List.mem_cons_self a rest)
    have hrest : sep ∉ rest := fun hcon => h (List.mem_cons_of_mem a hcon)
    simp only [List.cons_append, splitOnChar, if_neg ha, List.append_eq]
    rw [ih B hrest]

theorem splitOnChar_ne_nil (sep : Char) :
    ∀ l : List Char, splitOnChar sep l ≠ [] := by
  intro l
  induction l with
  | nil => simp [splitOnChar]
  | cons c rest ih =>
    simp only [splitOnChar]
    by_cases hc : c = sep
    · simp [hc]
    · simp only [if_neg hc]
      match hm : splitOnChar sep rest with
      | [] => exact absurd hm ih
      | h :: t => simp

theorem splitOnChar_two_of_mem (sep : Char) :
    ∀ l : List Char, sep ∈ l → ∃ p q r, splitOnChar sep l = p :: q :: r := by
  intro l
  induction l with
  | nil => intro h; simp at h
  | cons c rest ih =>
    intro h
    by_cases hc : c = sep
    · simp only [splitOnChar, if_pos hc]
      match hm : splitOnChar sep rest with
      | [] => exact absurd hm (splitOnChar_ne_nil sep rest)
      | q :: r => exact ⟨[], q, r, rfl⟩
    · have hrest : sep ∈ rest := by
        rcases List.mem_cons.mp h with rfl | hr
        · exact absurd rfl hc
        · exact hr
      obtain ⟨p, q, r, hpqr⟩ := ih hrest
      simp only [splitOnChar, if_neg hc, hpqr]
      exact ⟨c :: p, q, r, rfl⟩

theorem digit_ne_of_not_digit (a c : Char) (ha : a.isDigit = true)
    (hc : c.isDigit = false) : a ≠ c := by
  intro hcon
  rw [hcon, hc] at ha
  exact Bool.false_ne_true ha

theorem not_dot_of_all_digit (l : List Char) (h : l.all Char.isDigit = true) :
    '.' ∉ l :=
  not_mem_of_all Char.isDigit l h '.' (by decide)

theorem not_comma_of_all_digit (l : List Char) (h : l.all Char.isDigit = true) :
    ',' ∉ l :=
  not_mem_of_all Char.isDigit l h ',' (by decide)

theorem pyFloat_digits (A : List Char) (hne : A ≠ [])
    (hd : A.all Char.isDigit = true) :
    pyFloat A = some ((natOfDigits A : ℚ)) := by
  unfold pyFloat
  rw [splitOnChar_not_mem '.' A (not_dot_of_all_digit A hd)]
  simp [hne, hd]

theorem pyFloat_point (A B : List Char) (hA : A.all Char.isDigit = true)
    (hB : B.all Char.isDigit = true) (hne : A ++ B ≠ []) :
    pyFloat (A ++ '.' :: B) =
      some ((natOfDigits A : ℚ) + (natOfDigits B : ℚ) / 10 ^ B.length) := by
  unfold pyFloat
  rw [splitOnChar_append '.' A B (not_dot_of_all_digit A hA),
    splitOnChar_not_mem '.' B (not_dot_of_all_digit B hB)]
  have hAB : (A ++ B).all Char.isDigit = true := by
    rw [List.all_append, hA, hB]
    rfl
  simp [hne, hAB]

theorem filter_ne_eq_self_of_all_digit (l : List Char) (sep : Char)
    (h : l.all Char.isDigit = true) (hsep : sep.isDigit = false) :
    l.filter (· ≠ sep) = l := by
  apply List.filter_eq_self.mpr
  intro a ha
  have := List.all_eq_true.mp h a ha
  simp [digit_ne_of_not_digit a sep this hsep]

theorem map_commaToDot_id (l : List Char) (h : ',' ∉ l) :
    l.map commaToDot = l := by
  induction l with
  | nil => rfl
  | cons a rest ih =>
    have ha : ¬ a = ',' := fun hcon => h (hcon ▸ List.mem_cons_self a rest)
    have hrest : ',' ∉ rest := fun hcon => h (List.mem_cons_of_mem a hcon)
    simp only [List.map_cons, commaToDot, if_neg ha, ih hrest]

theorem filter_digits_of_digit_dot (A : List Char)
    (hA : ∀ a ∈ A, a.isDigit = true ∨ a = '.') :
    A.filter (· ≠ '.') = A.filter Char.isDigit := by
  apply List.filter_congr
  intro a ha
  rcases hA a ha with hd | rfl
  · simp [digit_ne_of_not_digit a '.' hd (by decide), hd]
  · simp

theorem all_filter_digit (l : List Char) :
    (l.filter Char.isDigit).all Char.isDigit = true := by
  rw [List.all_eq_true]
  intro a ha
  exact List.of_mem_filter ha

theorem no_comma_filter_digit_dot (A : List Char)
    (hA : ∀ a ∈ A, a.isDigit = true ∨ a = '.') :
    ',' ∉ A.filter (· ≠ '.') := by
  intro hmem
  have hA' := List.mem_filter.mp hmem
  rcases hA ',' hA'.1 with hd | hdot
  · simp at hd
  · simp at hdot

/-- Rule: when both separators occur, the code reads the value with every
`'.'` deleted and the `','` as the decimal point (the general form of the
Latin-American convention branch). -/
theorem convertCleaned_both (c : List Char) (h1 : '.' ∈ c) (h2 : ',' ∈ c) :
    convertCleaned c = pyFloat ((c.filter (· ≠ '.')).map commaToDot) := by
  unfold convertCleaned
  rw [if_pos ⟨h1, h2⟩]

/-- Rule: both separators occur (one comma): dots are thousands markers,
the comma is the decimal separator. -/
theorem convertCleaned_both_sem (A B : List Char)
    (hA : ∀ a ∈ A, a.isDigit = true ∨ a = '.')
    (hB : B.all Char.isDigit = true)
    (hdot : '.' ∈ A) (hAf : A.filter Char.isDigit ≠ []) :
    convertCleaned (A ++ ',' :: B) =
      some ((natOfDigits (A.filter Char.isDigit) : ℚ) +
        (natOfDigits B : ℚ) / 10 ^ B.length) := by
  rw [convertCleaned_both _ (List.mem_append_left _ hdot)
    (List.mem_append_right _ (List.mem_cons_self ',' B))]
  rw [List.filter_append, List.filter_cons_of_pos (by decide)]
  rw [filter_ne_eq_self_of_all_digit B '.' hB (by decide)]
  rw [filter_digits_of_digit_dot A hA]
  rw [List.map_append, List.map_cons]
  rw [map_commaToDot_id _ (by
    intro hmem
    exact absurd (List.mem_filter.mp hmem).2 (by decide))]
  rw [map_commaToDot_id B (not_comma_of_all_digit B hB),
    (by decide : commaToDot ',' = '.')]
  rw [pyFloat_point _ B (all_filter_digit A) hB (by
    intro hcon
    exact hAf (List.append_eq_nil.mp hcon).1)]

/-- Rule: a single comma with at most two digits after it is the decimal
separator. -/
theorem convertCleaned_comma_dec (A B : List Char)
    (hA : A.all Char.isDigit = true) (hB : B.all Char.isDigit = true)
    (hAne : A ≠ []) (hBlen : B.length ≤ 2) :
    convertCleaned (A ++ ',' :: B) =
      some ((natOfDigits A : ℚ) + (natOfDigits B : ℚ) / 10 ^ B.length) := by
  have hnodot : '.' ∉ A ++ ',' :: B := by
    intro hmem
    rcases List.mem_append.mp hmem with h | h
    · exact not_dot_of_all_digit A hA h
    · rcases List.mem_cons.mp h with h' | h'
      · simp at h'
      · exact not_dot_of_all_digit B hB h'
  unfold convertCleaned
  rw [if_neg (fun hand => hnodot hand.1),
    if_pos (List.mem_append_right _ (List.mem_cons_self ',' B))]
  rw [splitOnChar_append ',' A B (not_comma_of_all_digit A hA),
    splitOnChar_not_mem ',' B (not_comma_of_all_digit B hB)]
  simp only [if_pos hBlen]
  rw [List.map_append, List.map_cons,
    map_commaToDot_id A (not_comma_of_all_digit A hA),
    map_commaToDot_id B (not_comma_of_all_digit B hB),
    (by decide : commaToDot ',' = '.')]
  rw [pyFloat_point A B hA hB (by simp [hAne])]

/-- Rule: a single comma with more than two digits after it is a
thousands separator. -/
theorem convertCleaned_comma_thou (A B : List Char)
    (hA : A.all Char.isDigit = true) (hB : B.all Char.isDigit = true)
    (hAne : A ≠ []) (hBlen : 2 < B.length) :
    convertCleaned (A ++ ',' :: B) = some ((natOfDigits (A ++ B) : ℚ)) := by
  have hnodot : '.' ∉ A ++ ',' :: B := by
    intro hmem
    rcases List.mem_append.mp hmem with h | h
    · exact not_dot_of_all_digit A hA h
    · rcases List.mem_cons.mp h with h' | h'
      · simp at h'
      · exact not_dot_of_all_digit B hB h'
  unfold convertCleaned
  rw [if_neg (fun hand => hnodot hand.1),
    if_pos (List.mem_append_right _ (List.mem_cons_self ',' B))]
  rw [splitOnChar_append ',' A B (not_comma_of_all_digit A hA),
    splitOnChar_not_mem ',' B (not_comma_of_all_digit B hB)]
  simp only [if_neg (by omega : ¬ B.length ≤ 2)]
  rw [List.filter_append, List.filter_cons_of_neg (by decide)]
  rw [filter_ne_eq_self_of_all_digit A ',' hA (by decide),
    filter_ne_eq_self_of_all_digit B ',' hB (by decide)]
  rw [pyFloat_digits (A ++ B) (by simp [hAne]) (by rw [List.all_append, hA, hB]; rfl)]

/-- Rule: several commas form thousands separators (all are deleted). -/
theorem convertCleaned_comma_multi (A B : List Char)
    (hA : A.all Char.isDigit = true)
    (hB : ∀ b ∈ B, b.isDigit = true ∨ b = ',')
    (hBm : ',' ∈ B) (hAne : A ≠ []) :
    convertCleaned (A ++ ',' :: B) =
      some ((natOfDigits (A ++ B.filter Char.isDigit) : ℚ)) := by
  have hnodot : '.' ∉ A ++ ',' :: B := by
    intro hmem
    rcases List.mem_append.mp hmem with h | h
    · exact not_dot_of_all_digit A hA h
    · rcases List.mem_cons.mp h with h' | h'
      · simp at h'
      · rcases hB '.' h' with hd | hd <;> simp at hd
  obtain ⟨p, q, r, hpqr⟩ := splitOnChar_two_of_mem ',' B hBm
  have hmatch : convertCleaned (A ++ ',' :: B) =
      pyFloat ((A ++ ',' :: B).filter (· ≠ ',')) := by
    unfold convertCleaned
    rw [if_neg (fun hand => hnodot hand.1),
      if_pos (List.mem_append_right _ (List.mem_cons_self ',' B))]
    rw [splitOnChar_append ',' A B (not_comma_of_all_digit A hA), hpqr]
  rw [hmatch]
  rw [List.filter_append, List.filter_cons_of_neg (by decide)]
  rw [filter_ne_eq_self_of_all_digit A ',' hA (by decide)]
  have hBf : B.filter (· ≠ ',') = B.filter Char.isDigit := by
    apply List.filter_congr
    intro b hb
    rcases hB b hb with hd | rfl
    · simp [digit_ne_of_not_digit b ',' hd (by decide), hd]
    · simp
  rw [hBf]
  rw [pyFloat_digits _ (by simp [hAne]) (by
    rw [List.all_append, hA]
    simp [all_filter_digit B])]

/-- Rule: a single dot with at most two digits after it and at most
three before it is the decimal point. -/
theorem convertCleaned_dot_dec (A B : List Char)
    (hA : A.all Char.isDigit = true) (hB : B.all Char.isDigit = true)
    (hne : A ++ B ≠ []) (hBlen : B.length ≤ 2) (hAlen : A.length ≤ 3) :
    convertCleaned (A ++ '.' :: B) =
      some ((natOfDigits A : ℚ) + (natOfDigits B : ℚ) / 10 ^ B.length) := by
  have hnocomma : ',' ∉ A ++ '.' :: B := by
    intro hmem
    rcases List.mem_append.mp hmem with h | h
    · exact not_comma_of_all_digit A hA h
    · rcases List.mem_cons.mp h with h' | h'
      · simp at h'
      · exact not_comma_of_all_digit B hB h'
  unfold convertCleaned
  rw [if_neg (fun hand => hnocomma hand.2), if_neg hnocomma,
    if_pos (List.mem_append_right _ (List.mem_cons_self '.' B))]
  rw [splitOnChar_append '.' A B (not_dot_of_all_digit A hA),
    splitOnChar_not_mem '.' B (not_dot_of_all_digit B hB)]
  simp only [if_pos (And.intro hBlen hAlen)]
  rw [pyFloat_point A B hA hB hne]

/-- Rule: a single dot whose shape breaks the decimal pattern (more than
two digits after it, or more than three before it) is a thousands
separator. -/
theorem convertCleaned_dot_thou (A B : List Char)
    (hA : A.all Char.isDigit = true) (hB : B.all Char.isDigit = true)
    (hAne : A ≠ []) (hshape : 2 < B.length ∨ 3 < A.length) :
    convertCleaned (A ++ '.' :: B) = some ((natOfDigits (A ++ B) : ℚ)) := by
  have hnocomma : ',' ∉ A ++ '.' :: B := by
    intro hmem
    rcases List.mem_append.mp hmem with h | h
    · exact not_comma_of_all_digit A hA h
    · rcases List.mem_cons.mp h with h' | h'
      · simp at h'
      · exact not_comma_of_all_digit B hB h'
  unfold convertCleaned
  rw [if_neg (fun hand => hnocomma hand.2), if_neg hnocomma,
    if_pos (List.mem_append_right _ (List.mem_cons_self '.' B))]
  rw [splitOnChar_append '.' A B (not_dot_of_all_digit A hA),
    splitOnChar_not_mem '.' B (not_dot_of_all_digit B hB)]
  simp only [if_neg (by omega : ¬ (B.length ≤ 2 ∧ A.length ≤ 3))]
  rw [List.filter_append, List.filter_cons_of_neg (by decide)]
  rw [filter_ne_eq_self_of_all_digit A '.' hA (by decide),
    filter_ne_eq_self_of_all_digit B '.' hB (by decide)]
  rw [pyFloat_digits (A ++ B) (by simp [hAne]) (by rw [List.all_append, hA, hB]; rfl)]

/-- Rule: several dots form thousands separators (all are deleted). -/
theorem convertCleaned_dot_multi (A B : List Char)
    (hA : A.all Char.isDigit = true)
    (hB : ∀ b ∈ B, b.isDigit = true ∨ b = '.')
    (hBm : '.' ∈ B) (hAne : A ≠ []) :
    convertCleaned (A ++ '.' :: B) =
      some ((natOfDigits (A ++ B.filter Char.isDigit) : ℚ)) := by
  have hnocomma : ',' ∉ A ++ '.' :: B := by
    intro hmem
    rcases List.mem_append.mp hmem with h | h
    · exact not_comma_of_all_digit A hA h
    · rcases List.mem_cons.mp h with h' | h'
      · simp at h'
      · rcases hB ',' h' with hd | hd <;> simp at hd
  obtain ⟨p, q, r, hpqr⟩ := splitOnChar_two_of_mem '.' B hBm
  have hmatch : convertCleaned (A ++ '.' :: B) =
      pyFloat ((A ++ '.' :: B).filter (· ≠ '.')) := by
    unfold convertCleaned
    rw [if_neg (fun hand => hnocomma hand.2), if_neg hnocomma,
      if_pos (List.mem_append_right _ (List.mem_cons_self '.' B))]
    rw [splitOnChar_append '.' A B (not_dot_of_all_digit A hA), hpqr]
  rw [hmatch]
  rw [List.filter_append, List.filter_cons_of_neg (by decide)]
  rw [filter_ne_eq_self_of_all_digit A '.' hA (by decide)]
  have hBf : B.filter (· ≠ '.') = B.filter Char.isDigit := by
    apply List.filter_congr
    intro b hb
    rcases hB b hb with hd | rfl
    · simp [digit_ne_of_not_digit b '.' hd (by decide), hd]
    · simp
  rw [hBf]
  rw [pyFloat_digits _ (by simp [hAne]) (by
    rw [List.all_append, hA]
    simp [all_filter_digit B])]

/-- Rule: no separator at all — plain digits. -/
theorem convertCleaned_plain (A : List Char)
    (hA : A.all Char.isDigit = true) (hAne : A ≠ []) :
    convertCleaned A = some ((natOfDigits A : ℚ)) := by
  unfold convertCleaned
  rw [if_neg (fun hand => not_dot_of_all_digit A hA hand.1),
    if_neg (not_comma_of_all_digit A hA),
    if_neg (not_dot_of_all_digit A hA)]
  exact pyFloat_digits A hAne hA
theorem dropWhile_append_char (p : Char → Bool) (s : List Char) (c : Char)
    (hc : p c = false) :
    (s ++ [c]).dropWhile p = s.dropWhile p ++ [c] := by
  induction s with
  | nil => simp [List.dropWhile, hc]
  | cons a rest ih =>
    by_cases ha : p a
    · simp only [List.cons_append, List.dropWhile, ha, List.append_eq, ih]
    · simp [List.dropWhile, ha]

theorem stripList_append_minus (s : List Char) :
    stripList (s ++ ['-']) = s.dropWhile isWsChar ++ ['-'] := by
  unfold stripList
  rw [dropWhile_append_char isWsChar s '-' (by decide)]
  rw [List.reverse_append]
  simp only [List.reverse_cons, List.reverse_nil, List.nil_append, List.singleton_append]
  rw [dropWhile_self_of_head isWsChar _ (by
    intro c t hct
    cases hct
    decide)]
  simp

theorem stripList_dropWhile_ws (s : List Char) :
    stripList (s.dropWhile isWsChar) = stripList s := by
  unfold stripList
  rw [dropWhile_idem]

theorem extract_amount_minus (s : List Char)
    (h : ¬ (stripList s).getLast? = some '-') :
    extract_amount (s ++ ['-']) = (extract_amount s).map (fun q => -q) := by
  by_cases hs : s = []
  · subst hs
    decide
  · simp only [extract_amount, if_neg hs, if_neg (by simp : ¬ (s ++ ['-'] = []))]
    rw [stripList_append_minus s]
    rw [(show (s.dropWhile isWsChar ++ ['-']).getLast? = some '-' from by
      rw [getLast?_append_right _ _ (by simp)]
      rfl)]
    rw [if_pos rfl, if_neg h, List.dropLast_concat, stripList_dropWhile_ws]
    by_cases hc2 : (stripList s).filter isAmountChar = []
    · rw [if_pos hc2, if_pos hc2]
      rfl
    · rw [if_neg hc2, if_neg hc2]
      cases hcc : convertCleaned ((stripList s).filter isAmountChar) with
      | none => rfl
      | some q =>
        simp only [Option.map_some]
        rw [if_pos trivial, if_neg h]
        rfl

theorem mem_of_mem_splitOnChar (sep : Char) (l : List Char) (c : Char) :
    ∀ part, part ∈ splitOnChar sep l → c ∈ part → c ∈ l := by
  induction l with
  | nil =>
    intro part hp hc
    simp only [splitOnChar, List.mem_singleton] at hp
    subst hp
    simp at hc
  | cons a rest ih =>
    intro part hp hc
    simp only [splitOnChar] at hp
    by_cases ha : a = sep
    · rw [if_pos ha] at hp
      rcases List.mem_cons.mp hp with h1 | h2
      · subst h1
        simp at hc
      · exact List.mem_cons_of_mem a (ih part h2 hc)
    · rw [if_neg ha] at hp
      cases hr : splitOnChar sep rest with
      | nil =>
        rw [hr] at hp
        simp only [List.mem_singleton] at hp
        subst hp
        simp only [List.mem_singleton] at hc
        subst hc
        exact List.mem_cons_self _ _
      | cons h0 t =>
        rw [hr] at hp
        rcases List.mem_cons.mp hp with h1 | h2
        · subst h1
          rcases List.mem_cons.mp hc with hca | hch
          · subst hca
            exact List.mem_cons_self _ _
          · exact List.mem_cons_of_mem a
              (ih h0 (by rw [hr]; exact List.mem_cons_self h0 t) hch)
        · exact List.mem_cons_of_mem a
            (ih part (by rw [hr]; exact List.mem_cons_of_mem h0 h2) hc)

theorem pyFloat_no_digit (l : List Char) (h : ∀ c ∈ l, c.isDigit = false) :
    pyFloat l = none := by
  have key : ∀ part ∈ splitOnChar '.' l, ∀ c ∈ part, c.isDigit = false :=
    fun part hp c hc => h c (mem_of_mem_splitOnChar '.' l c part hp hc)
  unfold pyFloat
  rcases hsp : splitOnChar '.' l with _ | ⟨a, _ | ⟨b, _ | _⟩⟩
  · rfl
  · show (if a ≠ [] ∧ a.all Char.isDigit = true then some ((natOfDigits a : ℚ)) else none) = none
    rw [if_neg]
    rintro ⟨hne, hall⟩
    rcases List.exists_mem_of_ne_nil a hne with ⟨c, hc⟩
    have hd := (List.all_eq_true.mp hall) c hc
    have hf := key a (by rw [hsp]; exact List.mem_cons_self a []) c hc
    rw [hf] at hd
    exact Bool.false_ne_true hd
  · show (if a ++ b ≠ [] ∧ (a ++ b).all Char.isDigit = true then
        some ((natOfDigits a : ℚ) + (natOfDigits b : ℚ) / 10 ^ b.length) else none) = none
    rw [if_neg]
    rintro ⟨hne, hall⟩
    rcases List.exists_mem_of_ne_nil _ hne with ⟨c, hc⟩
    have hd := (List.all_eq_true.mp hall) c hc
    have hf : c.isDigit = false := by
      rcases List.mem_append.mp hc with hca | hcb
      · exact key a (by rw [hsp]; exact List.mem_cons_self a [b]) c hca
      · exact key b (by rw [hsp]; exact List.mem_cons_of_mem a (List.mem_cons_self b [])) c hcb
    rw [hf] at hd
    exact Bool.false_ne_true hd
  · rfl

theorem convertCleaned_no_digit (c : List Char) (h : ∀ x ∈ c, x.isDigit = false) :
    convertCleaned c = none := by
  have hfil : ∀ (p : Char → Bool), ∀ x ∈ c.filter p, x.isDigit = false :=
    fun p x hx => h x (List.mem_filter.mp hx).1
  have hmap : ∀ (l : List Char), (∀ x ∈ l, x.isDigit = false) →
      ∀ x ∈ l.map commaToDot, x.isDigit = false := by
    intro l hl x hx
    rcases List.mem_map.mp hx with ⟨y, hy, hxy⟩
    subst hxy
    unfold commaToDot
    by_cases hy2 : y = ','
    · rw [if_pos hy2]
      decide
    · rw [if_neg hy2]
      exact hl y hy
  unfold convertCleaned
  by_cases h1 : '.' ∈ c ∧ ',' ∈ c
  · rw [if_pos h1]
    exact pyFloat_no_digit _ (hmap _ (hfil _))
  · rw [if_neg h1]
    by_cases h2 : ',' ∈ c
    · rw [if_pos h2]
      rcases hsp : splitOnChar ',' c with _ | ⟨p0, _ | ⟨p1, _ | _⟩⟩
      · exact pyFloat_no_digit _ (hfil _)
      · exact pyFloat_no_digit _ (hfil _)
      · show (if p1.length ≤ 2 then pyFloat (c.map commaToDot)
            else pyFloat (c.filter (· ≠ ','))) = none
        by_cases hl : p1.length ≤ 2
        · rw [if_pos hl]
          exact pyFloat_no_digit _ (hmap _ h)
        · rw [if_neg hl]
          exact pyFloat_no_digit _ (hfil _)
      · exact pyFloat_no_digit _ (hfil _)
    · rw [if_neg h2]
      by_cases h3 : '.' ∈ c
      · rw [if_pos h3]
        rcases hsp : splitOnChar '.' c with _ | ⟨p0, _ | ⟨p1, _ | _⟩⟩
        · exact pyFloat_no_digit _ (hfil _)
        · exact pyFloat_no_digit _ (hfil _)
        · show (if p1.length ≤ 2 ∧ p0.length ≤ 3 then pyFloat c
              else pyFloat (c.filter (· ≠ '.'))) = none
          by_cases hl : p1.length ≤ 2 ∧ p0.length ≤ 3
          · rw [if_pos hl]
            exact pyFloat_no_digit _ h
          · rw [if_neg hl]
            exact pyFloat_no_digit _ (hfil _)
        · exact pyFloat_no_digit _ (hfil _)
      · rw [if_neg h3]
        exact pyFloat_no_digit _ h

theorem mem_of_mem_dropLast (l : List Char) (c : Char) (h : c ∈ l.dropLast) :
    c ∈ l := (List.dropLast_prefix l).subset h

theorem extract_amount_no_digit (s : List Char) (h : ∀ c ∈ s, c.isDigit = false) :
    extract_amount s = none := by
  by_cases hs : s = []
  · subst hs
    rfl
  · simp only [extract_amount, if_neg hs]
    have h0 : ∀ c ∈ stripList s, c.isDigit = false :=
      fun c hc => h c (mem_stripList s c hc)
    have h1 : ∀ c ∈ (if (stripList s).getLast? = some '-' then
        stripList (stripList s).dropLast else stripList s), c.isDigit = false := by
      intro c hc
      by_cases hneg : (stripList s).getLast? = some '-'
      · rw [if_pos hneg] at hc
        exact h0 c (mem_of_mem_dropLast _ c (mem_stripList _ c hc))
      · rw [if_neg hneg] at hc
        exact h0 c hc
    have h2 : ∀ c ∈ (if (stripList s).getLast? = some '-' then
        stripList (stripList s).dropLast else stripList s).filter isAmountChar,
        c.isDigit = false :=
      fun c hc => h1 c (List.mem_filter.mp hc).1
    by_cases hc2 : (if (stripList s).getLast? = some '-' then
        stripList (stripList s).dropLast else stripList s).filter isAmountChar = []
    · rw [if_pos hc2]
    · rw [if_neg hc2, convertCleaned_no_digit _ h2]

theorem digit_not_ws (c : Char) (h : c.isDigit = true) : isWsChar c = false := by
  unfold isWsChar
  by_contra hw
  rw [Bool.not_eq_false] at hw
  unfold Char.isWhitespace at hw
  simp only [Bool.or_eq_true, decide_eq_true_eq] at hw
  unfold Char.isDigit at h
  simp only [Bool.and_eq_true, decide_eq_true_eq] at h
  rcases hw with ((h1 | h1) | h1) | h1 <;> subst h1 <;> exact absurd h.1 (by decide)

theorem extract_amount_clean (s : List Char) (hne : s ≠ [])
    (hchars : ∀ c ∈ s, c.isDigit = true ∨ c = '.' ∨ c = ',') :
    extract_amount s = convertCleaned s := by
  have hnws : ∀ c ∈ s, isWsChar c = false := by
    intro c hc
    rcases hchars c hc with h | h | h
    · exact digit_not_ws c h
    · subst h
      decide
    · subst h
      decide
  have hstrip : stripList s = s := by
    apply stripList_eq_self
    · intro d hd
      exact hnws d (List.mem_of_mem_head? (by rw [hd]; rfl))
    · intro d hd
      exact hnws d (List.mem_of_mem_getLast? (by rw [hd]; rfl))
  have hlast : ¬ s.getLast? = some '-' := by
    intro hd
    have hm : '-' ∈ s := List.mem_of_mem_getLast? (by rw [hd]; rfl)
    rcases hchars '-' hm with h | h | h <;> exact absurd h (by decide)
  have hfil : s.filter isAmountChar = s := by
    apply List.filter_eq_self.mpr
    intro a ha
    rcases hchars a ha with h | h | h
    · simp [isAmountChar, h]
    · subst h
      decide
    · subst h
      decide
  simp only [extract_amount, if_neg hne, hstrip, if_neg hlast, hfil, if_neg hne]
  cases hcc : convertCleaned s with
  | none => rfl
  | some q => rfl

theorem extract_amount_ex1 :
    extract_amount "1.234,56".data = some ((123456 : ℚ) / 100) := by
  rw [(by decide : "1.234,56".data = "1.234".data ++ ',' :: "56".data)]
  rw [extract_amount_clean _ (by decide) (by decide)]
  rw [convertCleaned_both_sem "1.234".data "56".data (by decide) (by decide)
    (by decide) (by decide)]
  rw [(by decide : "1.234".data.filter Char.isDigit = "1234".data)]
  rw [(by decide : natOfDigits "1234".data = 1234),
    (by decide : natOfDigits "56".data = 56)]
  rw [(by decide : ("56".data).length = 2)]
  rw [Option.some_inj]
  norm_num

theorem extract_amount_ex2 :
    extract_amount "1.234,56-".data = some (-((123456 : ℚ) / 100)) := by
  rw [(by decide : "1.234,56-".data = "1.234,56".data ++ ['-'])]
  rw [extract_amount_minus _ (by decide)]
  rw [extract_amount_ex1]
  rfl

theorem extract_amount_ex3 :
    extract_amount "12,5".data = some ((125 : ℚ) / 10) := by
  rw [(by decide : "12,5".data = "12".data ++ ',' :: "5".data)]
  rw [extract_amount_clean _ (by decide) (by decide)]
  rw [convertCleaned_comma_dec "12".data "5".data (by decide) (by decide)
    (by decide) (by decide)]
  rw [(by decide : natOfDigits "12".data = 12),
    (by decide : natOfDigits "5".data = 5)]
  rw [(by decide : ("5".data).length = 1)]
  rw [Option.some_inj]
  norm_num

theorem extract_amount_ex4 :
    extract_amount "12.500".data = some (12500 : ℚ) := by
  rw [(by decide : "12.500".data = "12".data ++ '.' :: "500".data)]
  rw [extract_amount_clean _ (by decide) (by decide)]
  rw [convertCleaned_dot_thou "12".data "500".data (by decide) (by decide)
    (by decide) (Or.inl (by decide))]
  rw [(by decide : "12".data ++ "500".data = "12500".data)]
  rw [(by decide : natOfDigits "12500".data = 12500)]
  rw [Option.some_inj]
  norm_num

/-- C3: `extract_amount` separator disambiguation.  The cleaned string is
parsed by the stated rules: with both separators present the dots are
thousands markers and the comma the decimal separator; with only commas,
a single comma followed by at most two digits is decimal, otherwise all
commas are thousands markers; with only dots, a single dot with at most
two trailing and three leading digits is decimal, otherwise thousands;
a trailing `-` negates the result; empty or digit-free input gives
`none`; and the five quoted examples evaluate as stated. -/
theorem claim_C3 :
    (∀ s : List Char, s ≠ [] → (∀ c ∈ s, c.isDigit = true ∨ c = '.' ∨ c = ',') →
        extract_amount s = convertCleaned s) ∧
    (∀ A B : List Char, (∀ a ∈ A, a.isDigit = true ∨ a = '.') →
        B.all Char.isDigit = true → '.' ∈ A → A.filter Char.isDigit ≠ [] →
        convertCleaned (A ++ ',' :: B) =
          some ((natOfDigits (A.filter Char.isDigit) : ℚ) +
            (natOfDigits B : ℚ) / 10 ^ B.length)) ∧
    (∀ A B : List Char, A.all Char.isDigit = true → B.all Char.isDigit = true →
        A ≠ [] → B.length ≤ 2 →
        convertCleaned (A ++ ',' :: B) =
          some ((natOfDigits A : ℚ) + (natOfDigits B : ℚ) / 10 ^ B.length)) ∧
    (∀ A B : List Char, A.all Char.isDigit = true → B.all Char.isDigit = true →
        A ≠ [] → 2 < B.length →
        convertCleaned (A ++ ',' :: B) = some ((natOfDigits (A ++ B) : ℚ))) ∧
    (∀ A B : List Char, A.all Char.isDigit = true →
        (∀ b ∈ B, b.isDigit = true ∨ b = ',') → ',' ∈ B → A ≠ [] →
        convertCleaned (A ++ ',' :: B) =
          some ((natOfDigits (A ++ B.filter Char.isDigit) : ℚ))) ∧
    (∀ A B : List Char, A.all Char.isDigit = true → B.all Char.isDigit = true →
        A ++ B ≠ [] → B.length ≤ 2 → A.length ≤ 3 →
        convertCleaned (A ++ '.' :: B) =
          some ((natOfDigits A : ℚ) + (natOfDigits B : ℚ) / 10 ^ B.length)) ∧
    (∀ A B : List Char, A.all Char.isDigit = true → B.all Char.isDigit = true →
        A ≠ [] → (2 < B.length ∨ 3 < A.length) →
        convertCleaned (A ++ '.' :: B) = some ((natOfDigits (A ++ B) : ℚ))) ∧
    (∀ A B : List Char, A.all Char.isDigit = true →
        (∀ b ∈ B, b.isDigit = true ∨ b = '.') → '.' ∈ B → A ≠ [] →
        convertCleaned (A ++ '.' :: B) =
          some ((natOfDigits (A ++ B.filter Char.isDigit) : ℚ))) ∧
    (∀ s : List Char, ¬ (stripList s).getLast? = some '-' →
        extract_amount (s ++ ['-']) = (extract_amount s).map (fun q => -q)) ∧
    extract_amount [] = none ∧
    (∀ s : List Char, (∀ c ∈ s, c.isDigit = false) → extract_amount s = none) ∧
    extract_amount_str "1.234,56" = some ((123456 : ℚ) / 100) ∧
    extract_amount_str "1.234,56-" = some (-((123456 : ℚ) / 100)) ∧
    extract_amount_str "12,5" = some ((125 : ℚ) / 10) ∧
    extract_amount_str "12.500" = some (12500 : ℚ) ∧
    extract_amount_str "" = none :=
  ⟨extract_amount_clean, convertCleaned_both_sem, convertCleaned_comma_dec,
    convertCleaned_comma_thou, convertCleaned_comma_multi, convertCleaned_dot_dec,
    convertCleaned_dot_thou, convertCleaned_dot_multi, extract_amount_minus,
    rfl, extract_amount_no_digit, extract_amount_ex1, extract_amount_ex2,
    extract_amount_ex3, extract_amount_ex4, rfl⟩

theorem claim_C3_witness :
    extract_amount "12,5".data = convertCleaned "12,5".data :=
  claim_C3.1 "12,5".data (by decide) (by decide)
theorem parseWithMonto_none (line g : List Char) (pos : Nat)
    (h : montoStrOf g = none) : parseWithMonto line g pos = [] := by
  unfold parseWithMonto
  rw [h]

theorem parseWithMonto_eq_final (line g : List Char) (pos : Nat) (ms : List Char)
    (h : montoStrOf g = some ms) :
    ∃ f c d cu, parseWithMonto line g pos = parseWithMontoFinal f c d cu ms := by
  unfold parseWithMonto
  rw [h]
  exact ⟨_, _, _, _, rfl⟩

theorem parseWithMontoFinal_importe (f : Option DateYMD) (c d cu ms : List Char)
    (m : Movement) (hm : m ∈ parseWithMontoFinal f c d cu ms) :
    extract_amount ms = some m.importe := by
  unfold parseWithMontoFinal at hm
  cases hq : extract_amount ms with
  | none =>
    rw [hq] at hm
    simp at hm
  | some q =>
    simp only [hq] at hm
    split_ifs at hm with hd
    · rw [List.mem_singleton] at hm
      subst hm
      rfl
    · simp at hm

theorem parseWithMonto_importe (line g : List Char) (pos : Nat) (m : Movement)
    (hm : m ∈ parseWithMonto line g pos) :
    ∃ ms, montoStrOf g = some ms ∧ extract_amount ms = some m.importe := by
  cases hms : montoStrOf g with
  | none =>
    rw [parseWithMonto_none line g pos hms] at hm
    simp at hm
  | some ms =>
    obtain ⟨f, c, d, cu, heq⟩ := parseWithMonto_eq_final line g pos ms hms
    rw [heq] at hm
    exact ⟨ms, rfl, parseWithMontoFinal_importe f c d cu ms m hm⟩

def c6Line : List Char :=
  "DESCRIPCION DE PRUEBA".data ++ List.replicate 59 ' ' ++ "1.234,56 100,00".data

/-- C6: double-amount preference in `_parse_by_fixed_positions`.  When
the line substring from the minimum amount column (80) matches the
double-amount pattern, the record is built from the FIRST captured
group (every movement emitted by the shared tail has its `importe`
obtained from `extract_amount` of the `monto_str` rebuilt from the
group that was passed in); the single-amount pattern is consulted only
when the double-amount search fails; and when neither matches no record
is produced. -/
theorem claim_C6 :
    (∀ (line g1 g2 : List Char) (st : Nat),
        ¬(line = [] ∨ (stripList line).length < 10) →
        montoDobleSearch (line.drop 80) = some (g1, g2, st) →
        parse_by_fixed_positions line = parseWithMonto line g1 (80 + st)) ∧
    (∀ (line g : List Char) (pos : Nat) (m : Movement),
        m ∈ parseWithMonto line g pos →
        ∃ ms, montoStrOf g = some ms ∧ extract_amount ms = some m.importe) ∧
    (∀ (line g : List Char) (st : Nat),
        ¬(line = [] ∨ (stripList line).length < 10) →
        montoDobleSearch (line.drop 80) = none →
        montoSimpleSearch (line.drop 80) = some (g, st) →
        parse_by_fixed_positions line = parseWithMonto line g (80 + st)) ∧
    (∀ line : List Char,
        montoDobleSearch (line.drop 80) = none →
        montoSimpleSearch (line.drop 80) = none →
        parse_by_fixed_positions line = []) := by
  refine ⟨?_, parseWithMonto_importe, ?_, ?_⟩
  · intro line g1 g2 st hgate hd
    unfold parse_by_fixed_positions
    rw [if_neg hgate, hd]
  · intro line g st hgate hd hs
    unfold parse_by_fixed_positions
    rw [if_neg hgate, hd, hs]
  · intro line hd hs
    by_cases hgate : line = [] ∨ (stripList line).length < 10
    · unfold parse_by_fixed_positions
      rw [if_pos hgate]
    · unfold parse_by_fixed_positions
      rw [if_neg hgate, hd, hs]

theorem claim_C6_witness :
    parse_by_fixed_positions c6Line = parseWithMonto c6Line "1.234,56".data 80 :=
  claim_C6.1 c6Line "1.234,56".data "100,00".data 0 (by decide) (by decide)
